import Mathlib

set_option maxHeartbeats 1000000

/-!
Verification of `proxyembed` (src/proxyembed/__init__.py): a drop-in
`discord.Embed` replacement that resolves attributes through a sparse
overwrite view (`ProxyEmbed.__get`, `ProxyEmbed.__unwrap_overwrite`),
renders the document to plain text (`ProxyEmbed.unwrap`), and applies a
mention-suppression policy before falling back to text (`ProxyEmbed.send_to`).

The embedding models the Python runtime values that attribute resolution can
reach as the inductive type `Val`.  Python `None` is `Val.pynone`; the
`EmptyOverwrite` sentinel is the empty string `Val.pystr ""`.  External
collaborators (the markdown escaper, the capability predicate) are
parameters.  Dictionary methods and string methods are not modelled as
attributes (resolution paths never name them), and `datetime` is modelled by
its integral POSIX timestamp, so the `<t:{ts:.0f}>` marker carries the
integer directly.
-/

/-- Python values reachable while resolving a `ProxyEmbed` attribute path.
`attrs` is an object read through `getattr` (embed, `EmbedProxy`);
`seq` a list; `sdict` a plain `dict` with string keys (a base field);
`fddict` the overwrite `_fields` `defaultdict` keyed by `int`, whose
missing-key lookups produce an empty inner defaultdict; `sfdict` that inner
string-keyed `defaultdict` whose missing-key lookups produce `None`. -/
inductive Val where
  | pynone : Val
  | pystr : String → Val
  | pybool : Bool → Val
  | pytime : Int → Val
  | attrs : List (String × Val) → Val
  | seq : List Val → Val
  | sdict : List (String × Val) → Val
  | fddict : List (Int × List (String × Val)) → Val
  | sfdict : List (String × Val) → Val

/-- Python `is None` test, used by the `__unwrap_overwrite` walk. -/
def Val.isNone : Val → Bool
  | .pynone => true
  | _ => false

/-- Python truthiness (`if x:`) for the values unwrap actually tests. -/
def Val.truthy : Val → Bool
  | .pynone => false
  | .pystr s => !s.data.isEmpty
  | .pybool b => b
  | .pytime _ => true
  | .attrs _ => true
  | .seq l => !l.isEmpty
  | .sdict l => !l.isEmpty
  | .fddict l => !l.isEmpty
  | .sfdict l => !l.isEmpty

/-- The module-level sentinel `EmptyOverwrite`, which is the empty string. -/
def EmptyOverwrite : Val := .pystr ""

/-- Numeric value of an ASCII digit character. -/
def charDigit (c : Char) : Nat := c.toNat - 48

/-- Decimal value of a digit string. -/
def digitsToNat (l : List Char) : Nat := l.foldl (fun a c => 10 * a + charDigit c) 0

/-- Python `int(attr)` on the path-segment strings: an optional sign followed
by decimal digits (whitespace, underscores and non-ASCII digits are not
modelled; segments are attribute names or `str(i)` renderings). -/
def parsePyIntAux : List Char → Option Int
  | [] => Option.none
  | c :: rest =>
      if c = '-' then
        if rest = [] then Option.none
        else if rest.all Char.isDigit then some (-(digitsToNat rest : Int)) else Option.none
      else if c = '+' then
        if rest = [] then Option.none
        else if rest.all Char.isDigit then some ((digitsToNat rest : Int)) else Option.none
      else if (c :: rest).all Char.isDigit then some ((digitsToNat (c :: rest) : Int))
      else Option.none

/-- Python `int(attr)` over a string. -/
def parsePyInt? (s : String) : Option Int := parsePyIntAux s.data

/-- Python sequence subscript `l[i]` with negative-index semantics;
`Option.none` models the `IndexError`. -/
def pyIndex {α : Type} (l : List α) (i : Int) : Option α :=
  if 0 ≤ i then l.get? i.toNat
  else if -(l.length : Int) ≤ i then l.get? (i + l.length).toNat
  else Option.none

/-- `ProxyEmbed.__get(obj, attr)`: returns `obj` itself when it equals
`EmptyOverwrite` (the empty string); otherwise tries `getattr`, then
subscripting with `int(attr)`, then subscripting with the string, and
resolves to `None` when everything fails.  All exceptions listed in the
source are caught, so the function is total. -/
def pyGet (obj : Val) (attr : String) : Val :=
  match obj with
  | .pystr s =>
      if s.data.isEmpty then .pystr ""
      else
        match parsePyInt? attr with
        | some i =>
            match pyIndex s.data i with
            | some c => .pystr (String.mk [c])
            | Option.none => .pynone
        | Option.none => .pynone
  | .attrs l => (List.lookup attr l).getD .pynone
  | .seq l =>
      match parsePyInt? attr with
      | some i => (pyIndex l i).getD .pynone
      | Option.none => .pynone
  | .sdict l => (List.lookup attr l).getD .pynone
  | .fddict l =>
      match parsePyInt? attr with
      | some i => .sfdict ((List.lookup i l).getD [])
      | Option.none => .sfdict []
  | .sfdict l =>
      match parsePyInt? attr with
      | some _ => .pynone
      | Option.none => (List.lookup attr l).getD .pynone
  | _ => .pynone

/-- One base field of the embed: the `dict` stored in `Embed._fields`
(`name` and `value` are coerced to `str` by the library; `inline` may be
absent from raw dict data). -/
structure BField where
  name : String
  value : String
  inline : Option Bool

/-- The `dict` value of one base field as seen by `__get`. -/
def fieldVal (f : BField) : Val :=
  .sdict ([("name", Val.pystr f.name), ("value", Val.pystr f.value)] ++
    (match f.inline with
     | some b => [("inline", Val.pybool b)]
     | Option.none => []))

/-- The base rich document: the schema attributes of `discord.Embed` that
resolution paths traverse.  `Option.none` models an attribute that is unset
or `None` (both resolve identically through `__get`). -/
structure BaseEmbed where
  title : Option String
  url : Option String
  description : Option String
  authorName : Option String
  authorUrl : Option String
  thumbnailUrl : Option String
  imageUrl : Option String
  footerText : Option String
  timestamp : Option Int
  fields : List BField

/-- Coerce an optional string attribute to a runtime value. -/
def optStrV : Option String → Val
  | some s => .pystr s
  | Option.none => .pynone

/-- The base `ProxyEmbed` object as the value `__get` walks: attribute reads
go through the embed's properties (`author`, `thumbnail`, `image`, `footer`
always answer with an `EmbedProxy`; a missing proxy key resolves to absent).
An embed without fields has no `_fields` slot. -/
def baseVal (b : BaseEmbed) : Val :=
  .attrs [
    ("title", optStrV b.title),
    ("url", optStrV b.url),
    ("description", optStrV b.description),
    ("author", .attrs [("name", optStrV b.authorName), ("url", optStrV b.authorUrl)]),
    ("thumbnail", .attrs [("url", optStrV b.thumbnailUrl)]),
    ("image", .attrs [("url", optStrV b.imageUrl)]),
    ("footer", .attrs [("text", optStrV b.footerText)]),
    ("timestamp", match b.timestamp with
                  | some t => Val.pytime t
                  | Option.none => Val.pynone),
    ("_fields", if b.fields.isEmpty then Val.pynone
                else Val.seq (b.fields.map fieldVal))
  ]

/-- The `_OverwritesEmbed` view.  Scalar slots hold `Val.pynone` when unset
(`getattr` raising and an attribute explicitly holding `None` resolve the
same).  `author`/`thumbnail`/`image`/`footer` are the proxy contents, and
`fields` is the `defaultdict(int -> defaultdict(str -> None))` populated by
`set_field_at`. -/
structure Overwrites where
  title : Val
  url : Val
  description : Val
  author : List (String × Val)
  thumbnail : List (String × Val)
  image : List (String × Val)
  footer : List (String × Val)
  timestamp : Val
  fields : List (Int × List (String × Val))

/-- The overwrite view as the value `__get` walks. -/
def overVal (o : Overwrites) : Val :=
  .attrs [
    ("title", o.title),
    ("url", o.url),
    ("description", o.description),
    ("author", .attrs o.author),
    ("thumbnail", .attrs o.thumbnail),
    ("image", .attrs o.image),
    ("footer", .attrs o.footer),
    ("timestamp", o.timestamp),
    ("_fields", .fddict o.fields)
  ]

/-- A `ProxyEmbed`: the base document together with its overwrite view. -/
structure ProxyEmbed where
  base : BaseEmbed
  overwrites : Overwrites

/-- A fresh overwrite view (nothing set). -/
def emptyOverwrites : Overwrites :=
  ⟨.pynone, .pynone, .pynone, [], [], [], [], .pynone, []⟩

/-- A fresh base embed (nothing set). -/
def emptyBase : BaseEmbed :=
  ⟨Option.none, Option.none, Option.none, Option.none, Option.none,
   Option.none, Option.none, Option.none, Option.none, []⟩

/-- Python `".".join(attrs)`. -/
def joinDots : List String → String
  | [] => ""
  | [a] => a
  | a :: rest => a ++ "." ++ joinDots rest

/-- Split a character list on a separator character (the pieces, separator
dropped; mirrors Python `str.split(sep)` for a single-character separator). -/
def splitCh (sep : Char) : List Char → List (List Char)
  | [] => [[]]
  | c :: rest =>
      let r := splitCh sep rest
      if c = sep then [] :: r
      else
        match r with
        | [] => [[c]]
        | p :: ps => (c :: p) :: ps

/-- The segment list `".".join(map(str, attrs)).split(".")` computed at the
top of `__unwrap_overwrite`. -/
def splitAttrs (attrs : List String) : List String :=
  (splitCh '.' (joinDots attrs).data).map String.mk

/-- The overwrite side of the resolution loop: once the overwrite tracking
hits `None` it stays `None` for the remaining segments. -/
def owWalk (ow : Val) : List String → Val
  | [] => ow
  | a :: rest => owWalk (if ow.isNone then ow else pyGet ow a) rest

/-- The base side of the resolution loop. -/
def objWalk (obj : Val) : List String → Val
  | [] => obj
  | a :: rest => objWalk (pyGet obj a) rest

/-- The paired loop body of `__unwrap_overwrite`, advancing the overwrite
side (guarded by `is not None`) and the base side together. -/
def resolveLoop : Val → Val → List String → Val × Val
  | ow, obj, [] => (ow, obj)
  | ow, obj, a :: rest =>
      resolveLoop (if ow.isNone then ow else pyGet ow a) (pyGet obj a) rest

/-- `ProxyEmbed.__unwrap_overwrite(*attrs)`: raises `TypeError`
(`Option.none`) on an empty path, otherwise joins the segments with dots,
re-splits, walks both sides and returns the overwrite side when it ended
non-`None`, else the base side. -/
def unwrapOverwrite (pe : ProxyEmbed) (attrs : List String) : Option Val :=
  if attrs.isEmpty then Option.none
  else
    let segs := splitAttrs attrs
    let r := resolveLoop (overVal pe.overwrites) (baseVal pe.base) segs
    some (if r.1.isNone then r.2 else r.1)

/-- Resolution as a total value function (only applied to nonempty paths,
where `unwrapOverwrite` never raises). -/
def resolveV (pe : ProxyEmbed) (attrs : List String) : Val :=
  (unwrapOverwrite pe attrs).getD .pynone

/-- ASCII digit character for a value below ten. -/
def digitCh : Nat → Char
  | 0 => '0' | 1 => '1' | 2 => '2' | 3 => '3' | 4 => '4'
  | 5 => '5' | 6 => '6' | 7 => '7' | 8 => '8' | _ => '9'

/-- Decimal digits of a natural number, fuelled so that it is structurally
recursive (any fuel above the number itself yields the digits). -/
def natStrCharsAux : Nat → Nat → List Char
  | 0, _ => []
  | fuel + 1, n =>
      if n < 10 then [digitCh n]
      else natStrCharsAux fuel (n / 10) ++ [digitCh (n % 10)]

/-- Decimal digits of a natural number (most significant first). -/
def natStrChars (n : Nat) : List Char := natStrCharsAux (n + 1) n

/-- Python `str(i)` for the field indices threaded through the path join. -/
def natStr (n : Nat) : String := String.mk (natStrChars n)

/-- Python `textwrap.indent`-style splitter keeping line ends (the source
document uses LF line endings; other Unicode line boundaries accepted by
`str.splitlines` do not occur). -/
def splitKeepNL : List Char → List (List Char)
  | [] => []
  | c :: rest =>
      if c = '\n' then ['\n'] :: splitKeepNL rest
      else
        match splitKeepNL rest with
        | [] => [[c]]
        | p :: ps => (c :: p) :: ps

/-- The module helper `_quote`: block-quote a string by prefixing every
line, including empty ones, with `"> "`. -/
def _quote (s : String) : String :=
  String.mk (((splitKeepNL s.data).map (fun l => '>' :: ' ' :: l)).flatten)

/-- Python `"\n".join`. -/
def joinNL : List String → String
  | [] => ""
  | [a] => a
  | a :: rest => a ++ "\n" ++ joinNL rest

/-- The separator step `if unwrapped and unwrapped[-1]: unwrapped.append("")`:
append a blank entry only when the buffer is nonempty and its last entry is
a nonempty string. -/
def appendSep (l : List String) : List String :=
  match l.getLast? with
  | some last => if last = "" then l else l ++ [""]
  | Option.none => l

/-- The string content of a resolved value, when it is a string. -/
def Val.asStr? : Val → Option String
  | .pystr s => some s
  | _ => Option.none

/-- The instant carried by a resolved value, when it is a `datetime`. -/
def Val.asTime? : Val → Option Int
  | .pytime t => some t
  | _ => Option.none

/-- A rendering block of the form `x = _(path); if x: unwrapped.append(f(x))`.
`Option.none` models the exception a truthy non-string raises inside `f`
(every `f` in `unwrap` either escapes, quotes or concatenates strings). -/
def blockApp (v : Val) (f : String → String) (acc : List String) : Option (List String) :=
  if v.truthy then (v.asStr?).map (fun s => acc ++ [f s])
  else some acc

/-- The thumbnail/image block: a truthy URL is appended bare unless it uses
the reserved `attachment://` scheme. -/
def urlBlock (v : Val) (acc : List String) : Option (List String) :=
  if v.truthy then
    (v.asStr?).map (fun s => if s.startsWith "attachment://" then acc else acc ++ [s])
  else some acc

/-- Decimal rendering of a (possibly negative) whole-second timestamp, as
`f"{x:.0f}"` renders an integral float. -/
def intStr (t : Int) : String :=
  if t < 0 then "-" ++ natStr (-t).toNat else natStr t.toNat

/-- The platform-native absolute-instant marker `f"<t:{ts:.0f}>"`
(timestamps are modelled at whole-second resolution). -/
def tsMarker (t : Int) : String := "<t:" ++ intStr t ++ ">"

/-- The final footer/timestamp block of `unwrap`. -/
def footerBlock (emd : String → String) (text ts : Val) (acc : List String) :
    Option (List String) :=
  if text.truthy && ts.truthy then
    (text.asStr?).bind (fun s =>
      (ts.asTime?).map (fun t => acc ++ [emd s ++ " • " ++ tsMarker t]))
  else if text.truthy then
    (text.asStr?).map (fun s => acc ++ [emd s])
  else if ts.truthy then
    (ts.asTime?).map (fun t => acc ++ [tsMarker t])
  else some acc

/-- Python `inline is False`. -/
def isPyFalse : Val → Bool
  | .pybool false => true
  | _ => false

/-- One iteration of the field loop: the `assert name and value` guard
followed by the compact-or-two-line rendering decision.  `Option.none`
models the `AssertionError` on a falsy name or value as well as the
`TypeError` a truthy non-string would raise in rendering. -/
def fieldChunk (emd : String → String) (inl nm vl : Val) : Option (List String) :=
  match nm, vl with
  | .pystr n, .pystr v =>
      if n = "" || v = "" then Option.none
      else
        let b := "**" ++ emd n ++ "**"
        if isPyFalse inl || 78 < b.length + v.length ||
            b.data.contains '\n' || v.data.contains '\n'
        then some [b, _quote v]
        else some [b ++ " | " ++ v]
  | _, _ => Option.none

/-- The field loop of `unwrap` over the listed base-field indices. -/
def fieldsFoldAux (emd : String → String) (pe : ProxyEmbed) (acc : List String) :
    List Nat → Option (List String)
  | [] => some acc
  | i :: rest =>
      Option.bind (fieldChunk emd
        (resolveV pe ["_fields", natStr i, "inline"])
        (resolveV pe ["_fields", natStr i, "name"])
        (resolveV pe ["_fields", natStr i, "value"]))
        (fun chunk => fieldsFoldAux emd pe (acc ++ chunk) rest)

/-- The ordered line buffer `unwrapped` that `ProxyEmbed.unwrap` builds,
top to bottom, before joining.  `emd` is the external
`discord.utils.escape_markdown` collaborator. -/
def unwrapEntries (emd : String → String) (pe : ProxyEmbed) : Option (List String) :=
  Option.bind (blockApp (resolveV pe ["title"]) (fun t => "**" ++ emd t ++ "**") []) (fun u1 =>
  Option.bind (blockApp (resolveV pe ["url"]) (fun u => "> " ++ u) u1) (fun u2 =>
  Option.bind (blockApp (resolveV pe ["author.name"]) (fun n => "*" ++ emd n ++ "*") u2) (fun u3 =>
  Option.bind (blockApp (resolveV pe ["author.url"]) (fun u => "<" ++ u ++ ">") u3) (fun u4 =>
  Option.bind (urlBlock (resolveV pe ["thumbnail.url"]) (appendSep u4)) (fun u6 =>
  Option.bind (blockApp (resolveV pe ["description"]) _quote u6) (fun u7 =>
  Option.bind (fieldsFoldAux emd pe (appendSep u7) (List.range pe.base.fields.length)) (fun u9 =>
  Option.bind (urlBlock (resolveV pe ["image.url"]) (appendSep u9)) (fun u11 =>
  footerBlock emd (resolveV pe ["footer.text"]) (resolveV pe ["timestamp"]) u11))))))))

/-- `ProxyEmbed.unwrap`: the joined plain-text rendering (`Option.none`
models the exceptional outcomes noted on the individual blocks). -/
def unwrap (emd : String → String) (pe : ProxyEmbed) : Option String :=
  (unwrapEntries emd pe).map joinNL

/-- A value of one `discord.AllowedMentions` category: the class-level
default sentinel, a boolean, or any other representation (such as a list of
snowflakes). -/
inductive MVal where
  | dflt : MVal
  | pybool : Bool → MVal
  | other : MVal
deriving DecidableEq

/-- The outgoing mention-allow-list. -/
structure AllowedMentions where
  everyone : MVal
  users : MVal
  roles : MVal
deriving DecidableEq

/-- Python `x == True` on an allow-list category value.  The class-level
default is discord.py's `_FakeBool` sentinel, whose `__eq__` is
`other is True`, so `default == True` evaluates to `True`; any other
non-`True` representation (a boolean `False`, a snowflake list) compares
unequal. -/
def mvalIsTrue : MVal → Bool
  | .pybool true => true
  | .dflt => true
  | _ => false

/-- Truthiness of the popped `content` kwarg (`None` and `""` are falsy). -/
def contentTruthy : Option String → Bool
  | some s => !s.data.isEmpty
  | Option.none => false

/-- Whether `pat` begins `s`, over character lists. -/
def startsL : List Char → List Char → Bool
  | [], _ => true
  | _ :: _, [] => false
  | a :: pat, b :: s => a = b && startsL pat s

/-- Whether `pat` occurs contiguously inside `s`, over character lists. -/
def containsL (pat : List Char) : List Char → Bool
  | [] => pat.isEmpty
  | c :: rest => startsL pat (c :: rest) || containsL pat rest

/-- `MM_RE.search(content)`: the regex `@(everyone|here)` matches exactly
when one of the two broadcast tokens occurs as a substring. -/
def hasBroadcast : Option String → Bool
  | some s => containsL "@everyone".data s.data || containsL "@here".data s.data
  | Option.none => false

/-- The mention-suppression policy of `send_to` on the text path: mutate a
caller-supplied allow-list (`some m`) or construct one (`none`). -/
def applyMentionPolicy (content : Option String) (am : Option AllowedMentions) :
    AllowedMentions :=
  match am with
  | some m =>
      { everyone := if !contentTruthy content || !hasBroadcast content then .pybool false
                    else m.everyone,
        users := if mvalIsTrue m.users then .pybool false else m.users,
        roles := if mvalIsTrue m.roles then .pybool false else m.roles }
  | Option.none =>
      if contentTruthy content && hasBroadcast content then
        ⟨.dflt, .pybool false, .pybool false⟩
      else
        ⟨.pybool false, .pybool false, .pybool false⟩

/-- The single delivery call a `send_to` invocation hands to the transport
collaborator: either the raw embed (rich path, kwargs passed through) or the
unwrapped text with the suppressed allow-list. -/
inductive DeliveryCall where
  | rich : ProxyEmbed → Option String → Option AllowedMentions → DeliveryCall
  | text : String → AllowedMentions → DeliveryCall

/-- `ProxyEmbed.send_to`, abstracted over the awaited result of the external
capability check `embed_requested` (`Except.error e` models the predicate
raising `e`).  The returned value is the one delivery call made;
`Except.error (some e)` propagates the capability-check failure with no
delivery, and `Except.error Option.none` models `unwrap` raising on the
text path. -/
def sendTo {ε : Type} (pe : ProxyEmbed) (emd : String → String)
    (cap : Except ε Bool) (content : Option String)
    (am : Option AllowedMentions) : Except (Option ε) DeliveryCall :=
  match cap with
  | .error e => .error (some e)
  | .ok true => .ok (.rich pe content am)
  | .ok false =>
      match unwrap emd pe with
      | Option.none => .error Option.none
      | some u =>
          .ok (.text (match content with
                      | some c => c ++ "\n\n" ++ u
                      | Option.none => u)
               (applyMentionPolicy content am))

/-! Infrastructure lemmas: splitting, walking, decimal segments. -/

theorem splitCh_ne_nil (sep : Char) (l : List Char) : splitCh sep l ≠ [] := by
  cases l with
  | nil => simp [splitCh]
  | cons c rest =>
      simp only [splitCh]
      split
      · simp
      · split <;> simp

theorem splitCh_not_mem (sep : Char) (l : List Char) (h : sep ∉ l) : splitCh sep l = [l] := by
  induction l with
  | nil => rfl
  | cons c rest ih =>
      simp only [List.mem_cons, not_or] at h
      simp only [splitCh]
      rw [if_neg (fun hc => h.1 hc.symm), ih h.2]

theorem splitCh_append (sep : Char) (a b : List Char) :
    splitCh sep (a ++ sep :: b) = splitCh sep a ++ splitCh sep b := by
  induction a with
  | nil => simp [splitCh]
  | cons c a ih =>
      show splitCh sep (c :: (a ++ sep :: b)) = splitCh sep (c :: a) ++ splitCh sep b
      by_cases hc : c = sep
      · simp only [splitCh, if_pos hc, ih, List.cons_append]
      · simp only [splitCh, if_neg hc, ih]
        rcases ha : splitCh sep a with _ | ⟨p, ps⟩
        · exact absurd ha (splitCh_ne_nil sep a)
        · simp [ha]

theorem resolveLoop_eq (l : List String) (ow obj : Val) :
    resolveLoop ow obj l = (owWalk ow l, objWalk obj l) := by
  induction l generalizing ow obj with
  | nil => rfl
  | cons a rest ih => simp [resolveLoop, owWalk, objWalk, ih]

theorem owWalk_append (p q : List String) (ow : Val) :
    owWalk ow (p ++ q) = owWalk (owWalk ow p) q := by
  induction p generalizing ow with
  | nil => rfl
  | cons a rest ih => simp [owWalk, ih]

theorem objWalk_append (p q : List String) (obj : Val) :
    objWalk obj (p ++ q) = objWalk (objWalk obj p) q := by
  induction p generalizing obj with
  | nil => rfl
  | cons a rest ih => simp [objWalk, ih]

theorem pyGet_empty_str (a : String) : pyGet (.pystr "") a = .pystr "" := rfl

theorem owWalk_empty_str (l : List String) : owWalk (.pystr "") l = .pystr "" := by
  induction l with
  | nil => rfl
  | cons a rest ih => simpa [owWalk, Val.isNone, pyGet_empty_str] using ih

theorem objWalk_empty_str (l : List String) : objWalk (.pystr "") l = .pystr "" := by
  induction l with
  | nil => rfl
  | cons a rest ih => simpa [objWalk, pyGet_empty_str] using ih

theorem digitCh_isDigit (d : Nat) : (digitCh d).isDigit = true := by
  rcases d with _|_|_|_|_|_|_|_|_|d <;> rfl

theorem charDigit_digitCh (d : Nat) (h : d < 10) : charDigit (digitCh d) = d := by
  interval_cases d <;> rfl

theorem natStrCharsAux_ne_nil (fuel n : Nat) (h : n < fuel) :
    natStrCharsAux fuel n ≠ [] := by
  cases fuel with
  | zero => omega
  | succ f =>
      simp only [natStrCharsAux]
      split <;> simp

theorem natStrChars_ne_nil (n : Nat) : natStrChars n ≠ [] :=
  natStrCharsAux_ne_nil (n + 1) n (Nat.lt_succ_self n)

theorem natStrCharsAux_all_digit (fuel : Nat) :
    ∀ n, n < fuel → ∀ c ∈ natStrCharsAux fuel n, c.isDigit = true := by
  induction fuel with
  | zero => intro n h; omega
  | succ f ih =>
      intro n h c hc
      simp only [natStrCharsAux] at hc
      split at hc
      · simp only [List.mem_singleton] at hc
        subst hc
        exact digitCh_isDigit n
      · rcases List.mem_append.mp hc with hm | hm
        · have hdiv : n / 10 < f := by
            have h1 : n / 10 < n := Nat.div_lt_self (by omega) (by omega)
            omega
          exact ih (n / 10) hdiv c hm
        · simp only [List.mem_singleton] at hm
          subst hm
          exact digitCh_isDigit (n % 10)

theorem natStrChars_all_digit (n : Nat) : ∀ c ∈ natStrChars n, c.isDigit = true :=
  natStrCharsAux_all_digit (n + 1) n (Nat.lt_succ_self n)

theorem digitsToNat_append_one (a : List Char) (c : Char) :
    digitsToNat (a ++ [c]) = 10 * digitsToNat a + charDigit c := by
  simp [digitsToNat, List.foldl_append]

theorem digitsToNat_natStrCharsAux (fuel : Nat) :
    ∀ n, n < fuel → digitsToNat (natStrCharsAux fuel n) = n := by
  induction fuel with
  | zero => intro n h; omega
  | succ f ih =>
      intro n h
      simp only [natStrCharsAux]
      split
      · next hlt => simp [digitsToNat, charDigit_digitCh n hlt]
      · next hge =>
          have hdiv : n / 10 < f := by
            have h1 : n / 10 < n := Nat.div_lt_self (by omega) (by omega)
            omega
          rw [digitsToNat_append_one, ih (n / 10) hdiv,
            charDigit_digitCh (n % 10) (Nat.mod_lt _ (by omega))]
          omega

theorem digitsToNat_natStrChars (n : Nat) : digitsToNat (natStrChars n) = n :=
  digitsToNat_natStrCharsAux (n + 1) n (Nat.lt_succ_self n)

theorem isDigit_ne (c x : Char) (h : c.isDigit = true) (hx : x.isDigit = false) : c ≠ x := by
  intro he
  rw [he, hx] at h
  exact Bool.noConfusion h

theorem parse_natStr (n : Nat) : parsePyInt? (natStr n) = some (n : Int) := by
  have hall := natStrChars_all_digit n
  rcases hl : natStrChars n with _ | ⟨c, rest⟩
  · exact absurd hl (natStrChars_ne_nil n)
  · have hc : c.isDigit = true := hall c (by rw [hl]; exact List.mem_cons_self _ _)
    have hrest : ∀ x ∈ rest, x.isDigit = true := fun x hx => hall x (by rw [hl]; exact List.mem_cons_of_mem _ hx)
    have hdash : ¬c = '-' := isDigit_ne c '-' hc (by decide)
    have hplus : ¬c = '+' := isDigit_ne c '+' hc (by decide)
    have hAll : (c :: rest).all Char.isDigit = true := by
      rw [List.all_eq_true]
      intro x hx
      rcases List.mem_cons.mp hx with h | h
      · exact h ▸ hc
      · exact hrest x h
    have : parsePyIntAux (c :: rest) = some ((digitsToNat (c :: rest) : Int)) := by
      simp only [parsePyIntAux, if_neg hdash, if_neg hplus, hAll, if_pos]
    rw [parsePyInt?]
    show parsePyIntAux (natStr n).data = some (n : Int)
    have hdata : (natStr n).data = c :: rest := by rw [natStr, hl]
    rw [hdata, this, hl.symm, digitsToNat_natStrChars]

theorem natStr_no_dot (n : Nat) : '.' ∉ (natStr n).data := by
  intro h
  have := natStrChars_all_digit n '.' (by rwa [natStr] at h)
  exact Bool.noConfusion this

theorem joinDots_cons (a : String) (rest : List String) (h : rest ≠ []) :
    joinDots (a :: rest) = a ++ "." ++ joinDots rest := by
  cases rest with
  | nil => exact absurd rfl h
  | cons b r => rfl

theorem splitAttrs_eq_self (attrs : List String) (hne : attrs ≠ [])
    (h : ∀ s ∈ attrs, '.' ∉ s.data) : splitAttrs attrs = attrs := by
  induction attrs with
  | nil => exact absurd rfl hne
  | cons a rest ih =>
      cases rest with
      | nil =>
          rw [splitAttrs]
          show (splitCh '.' (joinDots [a]).data).map String.mk = [a]
          rw [show joinDots [a] = a from rfl,
            splitCh_not_mem '.' a.data (h a (List.mem_cons_self _ _))]
          simp
      | cons b r =>
          rw [splitAttrs, joinDots_cons a (b :: r) (by simp)]
          have hdata : (a ++ "." ++ joinDots (b :: r)).data
              = a.data ++ '.' :: (joinDots (b :: r)).data := by
            simp [String.data_append]
          rw [hdata, splitCh_append, splitCh_not_mem '.' a.data (h a (List.mem_cons_self _ _))]
          have ihr := ih (by simp) (fun s hs => h s (List.mem_cons_of_mem _ hs))
          rw [splitAttrs] at ihr
          simp only [List.map_append, List.map_cons, List.map_nil]
          rw [ihr]
          simp

/-! Closed forms for the resolution paths `unwrap` uses. -/

/-- Overwrite-side value of a field attribute: outer defaultdict at the
index, inner defaultdict at the key, default `None`. -/
def owFieldV (o : Overwrites) (i : Nat) (x : String) : Val :=
  (List.lookup x ((List.lookup (i : Int) o.fields).getD [])).getD .pynone

/-- Base-side value of a field attribute. -/
def baseFieldV (b : BaseEmbed) (i : Nat) (x : String) : Val :=
  match b.fields.get? i with
  | some f => pyGet (fieldVal f) x
  | Option.none => .pynone

theorem resolve_title (pe : ProxyEmbed) :
    unwrapOverwrite pe ["title"] =
      some (if pe.overwrites.title.isNone then optStrV pe.base.title
            else pe.overwrites.title) := rfl

theorem resolve_url (pe : ProxyEmbed) :
    unwrapOverwrite pe ["url"] =
      some (if pe.overwrites.url.isNone then optStrV pe.base.url
            else pe.overwrites.url) := rfl

theorem resolve_description (pe : ProxyEmbed) :
    unwrapOverwrite pe ["description"] =
      some (if pe.overwrites.description.isNone then optStrV pe.base.description
            else pe.overwrites.description) := rfl

theorem resolve_author_name (pe : ProxyEmbed) :
    unwrapOverwrite pe ["author.name"] =
      some (if ((List.lookup "name" pe.overwrites.author).getD .pynone).isNone
            then optStrV pe.base.authorName
            else (List.lookup "name" pe.overwrites.author).getD .pynone) := rfl

theorem resolve_author_url (pe : ProxyEmbed) :
    unwrapOverwrite pe ["author.url"] =
      some (if ((List.lookup "url" pe.overwrites.author).getD .pynone).isNone
            then optStrV pe.base.authorUrl
            else (List.lookup "url" pe.overwrites.author).getD .pynone) := rfl

theorem resolve_thumbnail_url (pe : ProxyEmbed) :
    unwrapOverwrite pe ["thumbnail.url"] =
      some (if ((List.lookup "url" pe.overwrites.thumbnail).getD .pynone).isNone
            then optStrV pe.base.thumbnailUrl
            else (List.lookup "url" pe.overwrites.thumbnail).getD .pynone) := rfl

theorem resolve_image_url (pe : ProxyEmbed) :
    unwrapOverwrite pe ["image.url"] =
      some (if ((List.lookup "url" pe.overwrites.image).getD .pynone).isNone
            then optStrV pe.base.imageUrl
            else (List.lookup "url" pe.overwrites.image).getD .pynone) := rfl

theorem resolve_footer_text (pe : ProxyEmbed) :
    unwrapOverwrite pe ["footer.text"] =
      some (if ((List.lookup "text" pe.overwrites.footer).getD .pynone).isNone
            then optStrV pe.base.footerText
            else (List.lookup "text" pe.overwrites.footer).getD .pynone) := rfl

theorem resolve_timestamp (pe : ProxyEmbed) :
    unwrapOverwrite pe ["timestamp"] =
      some (if pe.overwrites.timestamp.isNone
            then (match pe.base.timestamp with
                  | some t => Val.pytime t
                  | Option.none => Val.pynone)
            else pe.overwrites.timestamp) := rfl

theorem pyIndex_nat {α : Type} (l : List α) (i : Nat) :
    pyIndex l (i : Int) = l.get? i := by
  simp [pyIndex]

theorem unwrapOverwrite_eq (pe : ProxyEmbed) (attrs : List String)
    (h : attrs.isEmpty = false) :
    unwrapOverwrite pe attrs =
      some (if (owWalk (overVal pe.overwrites) (splitAttrs attrs)).isNone
            then objWalk (baseVal pe.base) (splitAttrs attrs)
            else owWalk (overVal pe.overwrites) (splitAttrs attrs)) := by
  simp only [unwrapOverwrite, h, Bool.false_eq_true, if_false, resolveLoop_eq]

theorem resolve_field (pe : ProxyEmbed) (i : Nat) (x : String)
    (hxdot : '.' ∉ x.data) (hxint : parsePyInt? x = Option.none) :
    unwrapOverwrite pe ["_fields", natStr i, x] =
      some (if (owFieldV pe.overwrites i x).isNone then baseFieldV pe.base i x
            else owFieldV pe.overwrites i x) := by
  have hsplit : splitAttrs ["_fields", natStr i, x] = ["_fields", natStr i, x] := by
    apply splitAttrs_eq_self _ (by simp)
    intro s hs
    simp only [List.mem_cons, List.not_mem_nil, or_false] at hs
    rcases hs with h | h | h
    · subst h; decide
    · subst h; exact natStr_no_dot i
    · subst h; exact hxdot
  rw [unwrapOverwrite_eq pe _ (by simp), hsplit]
  have how : owWalk (overVal pe.overwrites) ["_fields", natStr i, x]
      = owFieldV pe.overwrites i x := by
    show owWalk (pyGet (overVal pe.overwrites) "_fields") [natStr i, x]
      = owFieldV pe.overwrites i x
    have h1 : pyGet (overVal pe.overwrites) "_fields" = .fddict pe.overwrites.fields := rfl
    rw [h1]
    show owWalk (pyGet (.fddict pe.overwrites.fields) (natStr i)) [x]
      = owFieldV pe.overwrites i x
    have h2 : pyGet (.fddict pe.overwrites.fields) (natStr i)
        = .sfdict ((List.lookup (i : Int) pe.overwrites.fields).getD []) := by
      simp [pyGet, parse_natStr]
    rw [h2]
    show pyGet (.sfdict ((List.lookup (i : Int) pe.overwrites.fields).getD [])) x
      = owFieldV pe.overwrites i x
    simp [pyGet, hxint, owFieldV]
  have hobj : objWalk (baseVal pe.base) ["_fields", natStr i, x]
      = baseFieldV pe.base i x := by
    show objWalk (pyGet (baseVal pe.base) "_fields") [natStr i, x]
      = baseFieldV pe.base i x
    have h1 : pyGet (baseVal pe.base) "_fields"
        = if pe.base.fields.isEmpty then Val.pynone
          else Val.seq (pe.base.fields.map fieldVal) := rfl
    rw [h1]
    by_cases he : pe.base.fields.isEmpty
    · rw [if_pos he]
      show objWalk (pyGet Val.pynone (natStr i)) [x] = baseFieldV pe.base i x
      have h2 : pyGet Val.pynone (natStr i) = Val.pynone := rfl
      rw [h2]
      show pyGet Val.pynone x = baseFieldV pe.base i x
      rw [baseFieldV]
      rw [List.isEmpty_iff] at he
      rw [he]
      rfl
    · rw [if_neg he]
      show objWalk (pyGet (Val.seq (pe.base.fields.map fieldVal)) (natStr i)) [x]
        = baseFieldV pe.base i x
      have h2 : pyGet (Val.seq (pe.base.fields.map fieldVal)) (natStr i)
          = ((pe.base.fields.map fieldVal).get? i).getD Val.pynone := by
        simp only [pyGet, parse_natStr, pyIndex_nat]
      have h3 : (pe.base.fields.map fieldVal).get? i
          = (pe.base.fields.get? i).map fieldVal := by
        simp [List.get?_eq_getElem?, List.getElem?_map]
      rw [h2, h3]
      simp only [baseFieldV]
      rcases hg : pe.base.fields.get? i with _ | f <;> rfl
  rw [how, hobj]

theorem Val.isNone_eq_false (v : Val) : v.isNone = false ↔ v ≠ .pynone := by
  cases v <;> simp [Val.isNone]

theorem Val.isNone_eq_true (v : Val) : v.isNone = true ↔ v = .pynone := by
  cases v <;> simp [Val.isNone]

theorem joinDots_append (p q : List String) (hp : p ≠ []) (hq : q ≠ []) :
    joinDots (p ++ q) = joinDots p ++ "." ++ joinDots q := by
  induction p with
  | nil => exact absurd rfl hp
  | cons a rest ih =>
      cases rest with
      | nil =>
          cases q with
          | nil => exact absurd rfl hq
          | cons b r => rfl
      | cons b r =>
          rw [List.cons_append, joinDots_cons a (b :: r ++ q) (by simp),
            joinDots_cons a (b :: r) (by simp), ih (by simp)]
          simp [String.append_assoc]

theorem splitAttrs_append (p q : List String) (hp : p ≠ []) (hq : q ≠ []) :
    splitAttrs (p ++ q) = splitAttrs p ++ splitAttrs q := by
  rw [splitAttrs, splitAttrs, splitAttrs, joinDots_append p q hp hq]
  have hdata : (joinDots p ++ "." ++ joinDots q).data
      = (joinDots p).data ++ '.' :: (joinDots q).data := by
    simp [String.data_append]
  rw [hdata, splitCh_append, List.map_append]

/-- Sample content: an overwrite view that empties the title. -/
def owTitleEmpty : Overwrites := { emptyOverwrites with title := EmptyOverwrite }

/-- Sample content: a base document with only a title. -/
def baseTitleOnly : BaseEmbed := { emptyBase with title := some "Base" }

/-- C1.  The claim's final clause fails: a path that is absent on both sides
resolves to Python `None`, which is a different value from the explicit
empty marker `EmptyOverwrite` (the empty string). -/
theorem c1_counterexample :
    unwrapOverwrite ⟨emptyBase, emptyOverwrites⟩ ["title"] = some Val.pynone ∧
      Val.pynone ≠ EmptyOverwrite :=
  ⟨rfl, by rw [EmptyOverwrite]; exact fun h => Val.noConfusion h⟩

/-- C1 (amended).  If the overwrite walk of a nonempty path ends on a value
other than `None` (explicit empty included), `__unwrap_overwrite` returns
that value, for any base document with the same overwrites; otherwise it
returns the base side's resolved value — which is the absent value `None`
(not the empty marker) when the base also bottoms out absent. -/
theorem c1_overwrite_precedence (pe pe' : ProxyEmbed) (attrs : List String)
    (hne : attrs ≠ []) (hsame : pe'.overwrites = pe.overwrites) :
    (owWalk (overVal pe.overwrites) (splitAttrs attrs) ≠ Val.pynone →
      unwrapOverwrite pe attrs
          = some (owWalk (overVal pe.overwrites) (splitAttrs attrs)) ∧
      unwrapOverwrite pe' attrs
          = some (owWalk (overVal pe.overwrites) (splitAttrs attrs))) ∧
    (owWalk (overVal pe.overwrites) (splitAttrs attrs) = Val.pynone →
      unwrapOverwrite pe attrs
          = some (objWalk (baseVal pe.base) (splitAttrs attrs))) := by
  have hie : attrs.isEmpty = false := by
    cases attrs with
    | nil => exact absurd rfl hne
    | cons a r => rfl
  constructor
  · intro h
    have hnn : (owWalk (overVal pe.overwrites) (splitAttrs attrs)).isNone = false :=
      (Val.isNone_eq_false _).mpr h
    rw [unwrapOverwrite_eq pe attrs hie, unwrapOverwrite_eq pe' attrs hie, hsame, hnn]
    simp
  · intro h
    have hnn : (owWalk (overVal pe.overwrites) (splitAttrs attrs)).isNone = true :=
      (Val.isNone_eq_true _).mpr h
    rw [unwrapOverwrite_eq pe attrs hie, hnn]
    simp

/-- C1 witness: an explicitly emptied title wins over two different bases. -/
theorem c1_witness :
    unwrapOverwrite ⟨baseTitleOnly, owTitleEmpty⟩ ["title"] = some (Val.pystr "") ∧
      unwrapOverwrite ⟨emptyBase, owTitleEmpty⟩ ["title"] = some (Val.pystr "") := by
  have how : owWalk (overVal (ProxyEmbed.mk baseTitleOnly owTitleEmpty).overwrites)
      (splitAttrs ["title"]) = Val.pystr "" := rfl
  have h := (c1_overwrite_precedence ⟨baseTitleOnly, owTitleEmpty⟩
      ⟨emptyBase, owTitleEmpty⟩ ["title"] (by simp) rfl).1
    (by rw [how]; exact fun hc => Val.noConfusion hc)
  rw [how] at h
  exact h

/-- C2.  The "defaults pass through untouched" clause fails: discord.py's
class-level default sentinel `_FakeBool` defines `__eq__` as
`other is True`, so `getattr(mentions, attr) == True` also holds for a
caller-supplied default (the code's comment says "use == here in case it's
default"), and `send_to` forces default role/user allowances to `False`. -/
theorem c2_counterexample :
    (applyMentionPolicy (some "hi") (some ⟨MVal.dflt, MVal.dflt, MVal.dflt⟩)).users
        = MVal.pybool false ∧
    (applyMentionPolicy (some "hi") (some ⟨MVal.dflt, MVal.dflt, MVal.dflt⟩)).roles
        = MVal.pybool false ∧
    MVal.pybool false ≠ MVal.dflt :=
  ⟨rfl, rfl, by decide⟩

/-- C2 (amended).  Mention suppression on the text path: with a caller
allow-list, broadcast allowance is forced off unless truthy raw content
contains a broadcast token, and role/user categories are forced off exactly
when they equal the literal boolean `True` or the class-level default
sentinel (whose `==` also answers `True`); other representations pass
through untouched.  With no caller allow-list, one is constructed, leaving
broadcast at its default exactly when truthy content contains a broadcast
token.  The final conjuncts are the spec's end-to-end scenario. -/
theorem c2_mention_suppression (content : Option String) (m? : Option AllowedMentions) :
    (applyMentionPolicy content m? =
      match m? with
      | some m =>
          { everyone := if contentTruthy content = false ∨ hasBroadcast content = false
                        then MVal.pybool false else m.everyone,
            users := if m.users = MVal.pybool true ∨ m.users = MVal.dflt
                     then MVal.pybool false else m.users,
            roles := if m.roles = MVal.pybool true ∨ m.roles = MVal.dflt
                     then MVal.pybool false else m.roles }
      | Option.none =>
          if contentTruthy content = true ∧ hasBroadcast content = true
          then ⟨MVal.dflt, MVal.pybool false, MVal.pybool false⟩
          else ⟨MVal.pybool false, MVal.pybool false, MVal.pybool false⟩) ∧
    applyMentionPolicy (some "hello @everyone") Option.none
      = ⟨MVal.dflt, MVal.pybool false, MVal.pybool false⟩ ∧
    applyMentionPolicy (some "hello") Option.none
      = ⟨MVal.pybool false, MVal.pybool false, MVal.pybool false⟩ := by
  refine ⟨?_, by decide, by decide⟩
  cases m? with
  | none =>
      simp only [applyMentionPolicy]
      rcases hc : contentTruthy content <;> rcases hb : hasBroadcast content <;> simp
  | some m =>
      obtain ⟨e, u, r⟩ := m
      simp only [applyMentionPolicy, AllowedMentions.mk.injEq]
      refine ⟨?_, ?_, ?_⟩
      · rcases contentTruthy content <;> rcases hasBroadcast content <;> simp
      · cases u with
        | dflt => simp [mvalIsTrue]
        | other => simp [mvalIsTrue]
        | pybool b => cases b <;> simp [mvalIsTrue]
      · cases r with
        | dflt => simp [mvalIsTrue]
        | other => simp [mvalIsTrue]
        | pybool b => cases b <;> simp [mvalIsTrue]

/-- C3.  `send_to` control flow: an exception from the capability check
propagates unchanged with no delivery call; a `true` capability result
delivers the raw embed and never invokes the renderer (the outcome is
independent of the escape collaborator, which only the renderer consumes);
a `false` result makes exactly one text delivery of the rendering. -/
theorem c3_delivery_control_flow {ε : Type} (pe : ProxyEmbed)
    (emd emd' : String → String) (cap : Except ε Bool)
    (content : Option String) (am : Option AllowedMentions) :
    (∀ e, cap = .error e → sendTo pe emd cap content am = .error (some e)) ∧
    (cap = .ok true →
      sendTo pe emd cap content am = .ok (.rich pe content am) ∧
      sendTo pe emd cap content am = sendTo pe emd' cap content am) ∧
    (cap = .ok false → sendTo pe emd cap content am =
      (match unwrap emd pe with
       | some u => .ok (.text (match content with
                               | some c => c ++ "\n\n" ++ u
                               | Option.none => u)
                         (applyMentionPolicy content am))
       | Option.none => .error Option.none)) := by
  refine ⟨fun e he => ?_, fun ht => ?_, fun hf => ?_⟩
  · rw [he]; rfl
  · rw [ht]; exact ⟨rfl, rfl⟩
  · rw [hf]
    simp only [sendTo]
    rcases hu : unwrap emd pe with _ | u <;> rfl

/-- C3 witness at concrete capability results. -/
theorem c3_witness :
    @sendTo Unit ⟨emptyBase, emptyOverwrites⟩ id (.ok true) Option.none Option.none
      = .ok (.rich ⟨emptyBase, emptyOverwrites⟩ Option.none Option.none) ∧
    @sendTo Unit ⟨emptyBase, emptyOverwrites⟩ id (.error ()) Option.none Option.none
      = .error (some ()) :=
  ⟨((@c3_delivery_control_flow Unit ⟨emptyBase, emptyOverwrites⟩ id id (.ok true)
      Option.none Option.none).2.1 rfl).1,
   (@c3_delivery_control_flow Unit ⟨emptyBase, emptyOverwrites⟩ id id (.error ())
      Option.none Option.none).1 () rfl⟩

/-- C7.  Bottoming out absent on both sides returns `None`, which is not the
empty marker `EmptyOverwrite`: the claim's "returns the empty marker" clause
fails on this input. -/
theorem c7_counterexample :
    unwrapOverwrite ⟨emptyBase, emptyOverwrites⟩ ["description"] = some Val.pynone ∧
      Val.pynone ≠ EmptyOverwrite :=
  ⟨rfl, by rw [EmptyOverwrite]; exact fun h => Val.noConfusion h⟩

/-- C7 (amended).  Resolution never raises: an empty path raises `TypeError`
(`Option.none`); every nonempty path produces a value; and a field index
past the end of the base sequence, with no overwrite at that index, resolves
to the absent value `None` (falsy, but distinct from the empty marker)
rather than raising. -/
theorem c7_no_raise (pe : ProxyEmbed) (attrs : List String) (i : Nat)
    (hne : attrs ≠ []) (hlen : pe.base.fields.length ≤ i)
    (hov : List.lookup (i : Int) pe.overwrites.fields = Option.none) :
    unwrapOverwrite pe [] = Option.none ∧
    (∃ v, unwrapOverwrite pe attrs = some v) ∧
    unwrapOverwrite pe ["_fields", natStr i, "name"] = some Val.pynone := by
  have hie : attrs.isEmpty = false := by
    cases attrs with
    | nil => exact absurd rfl hne
    | cons a r => rfl
  refine ⟨rfl, ⟨_, unwrapOverwrite_eq pe attrs hie⟩, ?_⟩
  rw [resolve_field pe i "name" (by decide) (by decide)]
  have how : owFieldV pe.overwrites i "name" = Val.pynone := by
    rw [owFieldV, hov]
    rfl
  have hobj : baseFieldV pe.base i "name" = Val.pynone := by
    rw [baseFieldV, List.get?_eq_getElem?, List.getElem?_eq_none hlen]
  rw [how, hobj]
  simp [Val.isNone]

/-- C7 witness: probing index 5 of a one-field document. -/
theorem c7_witness :
    unwrapOverwrite ⟨{ emptyBase with fields := [⟨"N", "V", some true⟩] },
      emptyOverwrites⟩ ["_fields", natStr 5, "name"] = some Val.pynone :=
  (c7_no_raise ⟨{ emptyBase with fields := [⟨"N", "V", some true⟩] },
    emptyOverwrites⟩ ["title"] 5 (by simp) (by simp) rfl).2.2

/-- C9.  The `EmptyOverwrite` check at the top of `__get` makes the empty
string absorbing on both walks: once either side reaches `""`, every
remaining segment resolves to `""`; in particular a base attribute that
happens to hold the empty string makes resolution of that path and all
deeper paths return the empty marker whenever no overwrite shadows them —
indistinguishable from an explicitly empty overwrite. -/
theorem c9_empty_string_absorbs (pe : ProxyEmbed) (p q : List String)
    (hp : p ≠ [])
    (hbase : objWalk (baseVal pe.base) (splitAttrs p) = .pystr "")
    (hov : owWalk (overVal pe.overwrites) (splitAttrs (p ++ q)) = .pynone) :
    (∀ l : List String, objWalk (.pystr "") l = .pystr "") ∧
    (∀ l : List String, owWalk (.pystr "") l = .pystr "") ∧
    unwrapOverwrite pe (p ++ q) = some (.pystr "") := by
  refine ⟨objWalk_empty_str, owWalk_empty_str, ?_⟩
  have hie : (p ++ q).isEmpty = false := by
    cases p with
    | nil => exact absurd rfl hp
    | cons a r => rfl
  rw [unwrapOverwrite_eq pe (p ++ q) hie, hov]
  have hobj : objWalk (baseVal pe.base) (splitAttrs (p ++ q)) = .pystr "" := by
    cases q with
    | nil => rw [List.append_nil]; exact hbase
    | cons b r =>
        rw [splitAttrs_append p (b :: r) hp (by simp), objWalk_append, hbase,
          objWalk_empty_str]
  rw [hobj]
  rfl

/-- C9 witness: a base title equal to `""` propagates to a deeper probe. -/
theorem c9_witness :
    unwrapOverwrite ⟨{ emptyBase with title := some "" }, emptyOverwrites⟩
      ["title", "x"] = some (.pystr "") :=
  (c9_empty_string_absorbs ⟨{ emptyBase with title := some "" }, emptyOverwrites⟩
    ["title"] ["x"] (by simp) rfl rfl).2.2

theorem option_bind_some {α β : Type} (a : α) (f : α → Option β) :
    Option.bind (some a) f = f a := rfl

theorem str_eq_empty_iff (t : String) : t = "" ↔ t.data = [] := by
  rw [String.ext_iff]

theorem pystr_truthy (t : String) : (Val.pystr t).truthy = true ↔ t ≠ "" := by
  simp [Val.truthy, List.isEmpty_iff, str_eq_empty_iff]

/-- The base document of the spec's rendering scenario. -/
def scenarioBase : BaseEmbed :=
  { emptyBase with
      title := some "T"
      description := some "D"
      fields := [⟨"N", "V", some true⟩] }

/-- The spec's rendering scenario document, with no overwrites. -/
def docScenario : ProxyEmbed := ⟨scenarioBase, emptyOverwrites⟩

/-- C4.  The claim's exact output fails: the rendering carries a trailing
newline (the separator appended after the field block is not trimmed when
no image or footer follows). -/
theorem c4_counterexample :
    unwrap (fun s => s) docScenario = some "**T**\n\n> D\n\n**N** | V\n" ∧
      ("**T**\n\n> D\n\n**N** | V\n" : String) ≠ "**T**\n\n> D\n\n**N** | V" :=
  ⟨rfl, by decide⟩

/-- C4 (amended).  For any escape collaborator fixing the scenario's
letters, the scenario document unwraps to the claimed joined lines —
followed by one trailing newline left by the final block separator. -/
theorem c4_scenario (emd : String → String) (hT : emd "T" = "T") (hN : emd "N" = "N") :
    unwrap emd docScenario = some "**T**\n\n> D\n\n**N** | V\n" := by
  have h1 : blockApp (resolveV docScenario ["title"])
      (fun t => "**" ++ emd t ++ "**") [] = some ["**T**"] := by
    have h : blockApp (resolveV docScenario ["title"])
        (fun t => "**" ++ emd t ++ "**") [] = some ["**" ++ emd "T" ++ "**"] := rfl
    rw [h, hT]
    rfl
  have h2 : blockApp (resolveV docScenario ["url"]) (fun u => "> " ++ u) ["**T**"]
      = some ["**T**"] := rfl
  have h3 : blockApp (resolveV docScenario ["author.name"])
      (fun n => "*" ++ emd n ++ "*") ["**T**"] = some ["**T**"] := rfl
  have h4 : blockApp (resolveV docScenario ["author.url"])
      (fun u => "<" ++ u ++ ">") ["**T**"] = some ["**T**"] := rfl
  have ha1 : appendSep ["**T**"] = ["**T**", ""] := rfl
  have h6 : urlBlock (resolveV docScenario ["thumbnail.url"]) ["**T**", ""]
      = some ["**T**", ""] := rfl
  have h7 : blockApp (resolveV docScenario ["description"]) _quote ["**T**", ""]
      = some ["**T**", "", "> D"] := rfl
  have ha2 : appendSep ["**T**", "", "> D"] = ["**T**", "", "> D", ""] := rfl
  have hrange : List.range docScenario.base.fields.length = [0] := rfl
  have hc : fieldChunk emd (resolveV docScenario ["_fields", natStr 0, "inline"])
      (resolveV docScenario ["_fields", natStr 0, "name"])
      (resolveV docScenario ["_fields", natStr 0, "value"]) = some ["**N** | V"] := by
    have h : fieldChunk emd (resolveV docScenario ["_fields", natStr 0, "inline"])
        (resolveV docScenario ["_fields", natStr 0, "name"])
        (resolveV docScenario ["_fields", natStr 0, "value"])
        = (if (isPyFalse (Val.pybool true)
              || decide (78 < ("**" ++ emd "N" ++ "**").length + ("V" : String).length)
              || ("**" ++ emd "N" ++ "**").data.contains '\n'
              || ("V" : String).data.contains '\n') = true
           then some ["**" ++ emd "N" ++ "**", _quote "V"]
           else some ["**" ++ emd "N" ++ "**" ++ " | " ++ "V"]) := rfl
    rw [h, hN]
    rfl
  have ha3 : appendSep ["**T**", "", "> D", "", "**N** | V"]
      = ["**T**", "", "> D", "", "**N** | V", ""] := rfl
  have h11 : urlBlock (resolveV docScenario ["image.url"])
      ["**T**", "", "> D", "", "**N** | V", ""]
      = some ["**T**", "", "> D", "", "**N** | V", ""] := rfl
  have h12 : footerBlock emd (resolveV docScenario ["footer.text"])
      (resolveV docScenario ["timestamp"]) ["**T**", "", "> D", "", "**N** | V", ""]
      = some ["**T**", "", "> D", "", "**N** | V", ""] := rfl
  have hj : joinNL ["**T**", "", "> D", "", "**N** | V", ""]
      = "**T**\n\n> D\n\n**N** | V\n" := rfl
  simp only [unwrap, unwrapEntries, h1, option_bind_some, h2, h3, h4, ha1, h6, h7,
    ha2, hrange, fieldsFoldAux, hc, List.cons_append, List.nil_append, ha3, h11,
    h12, Option.map_some', hj]

/-- C4 witness: the identity escape realises the hypotheses. -/
theorem c4_witness :
    unwrap (fun s => s) docScenario = some "**T**\n\n> D\n\n**N** | V\n" :=
  c4_scenario (fun s => s) rfl rfl

/-- C8.  The final footer/timestamp line of the entry buffer: escaped text,
`" • "`, and the `<t:...>` marker when both resolve present; the escaped
text alone when only the footer text is truthy; the marker alone when only
the timestamp resolves to an instant.  The platform-native marker is
rendered unconditionally in this version of the code, so the locale
fallback path is never taken. -/
theorem c8_footer_timestamp (emd : String → String) (pe : ProxyEmbed)
    (es : List String) (hes : unwrapEntries emd pe = some es) :
    (∀ t ts, resolveV pe ["footer.text"] = .pystr t → t ≠ "" →
       resolveV pe ["timestamp"] = .pytime ts →
       es.getLast? = some (emd t ++ " • " ++ tsMarker ts)) ∧
    (∀ t, resolveV pe ["footer.text"] = .pystr t → t ≠ "" →
       (resolveV pe ["timestamp"]).truthy = false →
       es.getLast? = some (emd t)) ∧
    (∀ ts, (resolveV pe ["footer.text"]).truthy = false →
       resolveV pe ["timestamp"] = .pytime ts →
       es.getLast? = some (tsMarker ts)) := by
  rw [unwrapEntries] at hes
  rcases Option.bind_eq_some.mp hes with ⟨u1, hu1, hes⟩
  rcases Option.bind_eq_some.mp hes with ⟨u2, hu2, hes⟩
  rcases Option.bind_eq_some.mp hes with ⟨u3, hu3, hes⟩
  rcases Option.bind_eq_some.mp hes with ⟨u4, hu4, hes⟩
  rcases Option.bind_eq_some.mp hes with ⟨u6, hu6, hes⟩
  rcases Option.bind_eq_some.mp hes with ⟨u7, hu7, hes⟩
  rcases Option.bind_eq_some.mp hes with ⟨u9, hu9, hes⟩
  rcases Option.bind_eq_some.mp hes with ⟨u11, hu11, hes⟩
  refine ⟨fun t ts hft htne hts => ?_, fun t hft htne hts => ?_, fun ts hft hts => ?_⟩
  · rw [hft, hts] at hes
    have h1 : (Val.pystr t).truthy = true := (pystr_truthy t).mpr htne
    have h2 : (Val.pytime ts).truthy = true := rfl
    simp [footerBlock, Val.asStr?, Val.asTime?, h1, h2] at hes
    rw [← hes]
    simp [List.getLast?_concat]
  · rw [hft] at hes
    have h1 : (Val.pystr t).truthy = true := (pystr_truthy t).mpr htne
    simp [footerBlock, Val.asStr?, Val.asTime?, h1, hts] at hes
    rw [← hes]
    simp [List.getLast?_concat]
  · rw [hts] at hes
    have h2 : (Val.pytime ts).truthy = true := rfl
    simp [footerBlock, Val.asStr?, Val.asTime?, hft, h2] at hes
    rw [← hes]
    simp [List.getLast?_concat]

/-- A sample document carrying only footer text and a timestamp. -/
def docFooterTs : ProxyEmbed :=
  ⟨{ emptyBase with
      footerText := some "F"
      timestamp := some 1000 }, emptyOverwrites⟩

/-- C8 witness: the footer/timestamp document renders its single line. -/
theorem c8_witness :
    unwrapEntries (fun s => s) docFooterTs = some ["F • <t:1000>"] ∧
      (["F • <t:1000>"] : List String).getLast? = some ("F" ++ " • " ++ tsMarker 1000) :=
  ⟨rfl, (c8_footer_timestamp (fun s => s) docFooterTs ["F • <t:1000>"] rfl).1
    "F" 1000 rfl (by decide) rfl⟩

/-! Field-loop decomposition lemmas. -/

theorem fieldsFoldAux_extends (emd : String → String) (pe : ProxyEmbed)
    (idxs : List Nat) :
    ∀ acc r, fieldsFoldAux emd pe acc idxs = some r → ∃ t, r = acc ++ t := by
  induction idxs with
  | nil =>
      intro acc r h
      exact ⟨[], by simpa [fieldsFoldAux] using (Option.some.inj h).symm⟩
  | cons i rest ih =>
      intro acc r h
      rw [fieldsFoldAux] at h
      rcases Option.bind_eq_some.mp h with ⟨c, hc, hrec⟩
      rcases ih (acc ++ c) r hrec with ⟨t, ht⟩
      exact ⟨c ++ t, by rw [ht, List.append_assoc]⟩

theorem fieldsFoldAux_chunk (emd : String → String) (pe : ProxyEmbed)
    (idxs : List Nat) :
    ∀ acc r i c, i ∈ idxs → fieldsFoldAux emd pe acc idxs = some r →
      fieldChunk emd (resolveV pe ["_fields", natStr i, "inline"])
        (resolveV pe ["_fields", natStr i, "name"])
        (resolveV pe ["_fields", natStr i, "value"]) = some c →
      ∃ pre post, r = pre ++ c ++ post := by
  induction idxs with
  | nil => intro acc r i c hi; exact absurd hi (List.not_mem_nil i)
  | cons j rest ih =>
      intro acc r i c hi h hcc
      rw [fieldsFoldAux] at h
      rcases Option.bind_eq_some.mp h with ⟨c₀, hc₀, hrec⟩
      rcases List.mem_cons.mp hi with hij | hmem
      · subst hij
        rw [hcc] at hc₀
        rcases Option.some.inj hc₀ with rfl
        rcases fieldsFoldAux_extends emd pe rest (acc ++ c) r hrec with ⟨t, ht⟩
        exact ⟨acc, t, by rw [ht, List.append_assoc]⟩
      · exact ih (acc ++ c₀) r i c hmem hrec hcc

theorem blockApp_shape (v : Val) (f : String → String) (acc : List String) :
    blockApp v f acc = some acc ∨ (∃ x, blockApp v f acc = some (acc ++ [x])) ∨
      blockApp v f acc = Option.none := by
  rw [blockApp]
  rcases ht : v.truthy
  · rw [if_neg (by simp [ht])]
    exact Or.inl rfl
  · rw [if_pos rfl]
    rcases v.asStr? with _ | s
    · exact Or.inr (Or.inr rfl)
    · exact Or.inr (Or.inl ⟨f s, rfl⟩)

theorem urlBlock_shape (v : Val) (acc : List String) :
    urlBlock v acc = some acc ∨ (∃ x, urlBlock v acc = some (acc ++ [x])) ∨
      urlBlock v acc = Option.none := by
  rw [urlBlock]
  rcases ht : v.truthy
  · rw [if_neg (by simp [ht])]
    exact Or.inl rfl
  · rw [if_pos rfl]
    rcases v.asStr? with _ | s
    · exact Or.inr (Or.inr rfl)
    · by_cases hs : s.startsWith "attachment://" = true
      · exact Or.inl (by simp [hs])
      · exact Or.inr (Or.inl ⟨s, by simp [hs]⟩)

theorem footerBlock_shape (emd : String → String) (text ts : Val)
    (acc : List String) :
    footerBlock emd text ts acc = some acc ∨
      (∃ x, footerBlock emd text ts acc = some (acc ++ [x])) ∨
      footerBlock emd text ts acc = Option.none := by
  rw [footerBlock]
  rcases h1 : (text.truthy && ts.truthy)
  · rw [if_neg (by simp [h1])]
    rcases h2 : text.truthy
    · rw [if_neg (by simp [h2])]
      rcases h3 : ts.truthy
      · rw [if_neg (by simp [h3])]
        exact Or.inl rfl
      · rw [if_pos rfl]
        rcases ts.asTime? with _ | t2
        · exact Or.inr (Or.inr rfl)
        · exact Or.inr (Or.inl ⟨_, rfl⟩)
    · rw [if_pos rfl]
      rcases text.asStr? with _ | s
      · exact Or.inr (Or.inr rfl)
      · exact Or.inr (Or.inl ⟨_, rfl⟩)
  · rw [if_pos rfl]
    rcases text.asStr? with _ | s
    · exact Or.inr (Or.inr rfl)
    · rcases ts.asTime? with _ | t2
      · exact Or.inr (Or.inr rfl)
      · exact Or.inr (Or.inl ⟨_, rfl⟩)

theorem blockApp_extends (v : Val) (f : String → String) (acc r : List String)
    (h : blockApp v f acc = some r) : ∃ t, r = acc ++ t := by
  rcases blockApp_shape v f acc with hs | ⟨x, hs⟩ | hs <;> rw [hs] at h
  · exact ⟨[], by simpa using (Option.some.inj h).symm⟩
  · exact ⟨[x], (Option.some.inj h).symm⟩
  · exact absurd h (by simp)

theorem urlBlock_extends (v : Val) (acc r : List String)
    (h : urlBlock v acc = some r) : ∃ t, r = acc ++ t := by
  rcases urlBlock_shape v acc with hs | ⟨x, hs⟩ | hs <;> rw [hs] at h
  · exact ⟨[], by simpa using (Option.some.inj h).symm⟩
  · exact ⟨[x], (Option.some.inj h).symm⟩
  · exact absurd h (by simp)

theorem footerBlock_extends (emd : String → String) (text ts : Val)
    (acc r : List String) (h : footerBlock emd text ts acc = some r) :
    ∃ t, r = acc ++ t := by
  rcases footerBlock_shape emd text ts acc with hs | ⟨x, hs⟩ | hs <;> rw [hs] at h
  · exact ⟨[], by simpa using (Option.some.inj h).symm⟩
  · exact ⟨[x], (Option.some.inj h).symm⟩
  · exact absurd h (by simp)

theorem appendSep_extends (l : List String) : ∃ t, appendSep l = l ++ t := by
  rcases hl : l.getLast? with _ | last
  · exact ⟨[], by simp [appendSep, hl]⟩
  · by_cases he : last = ""
    · exact ⟨[], by simp [appendSep, hl, he]⟩
    · exact ⟨[""], by simp [appendSep, hl, he]⟩

theorem fieldChunk_eq (emd : String → String) (inl : Val) (n v : String)
    (hn : n ≠ "") (hv : v ≠ "") :
    fieldChunk emd inl (.pystr n) (.pystr v) =
      some (if (isPyFalse inl
              || decide (78 < ("**" ++ emd n ++ "**").length + v.length)
              || ("**" ++ emd n ++ "**").data.contains '\n'
              || v.data.contains '\n') = true
            then ["**" ++ emd n ++ "**", _quote v]
            else ["**" ++ emd n ++ "**" ++ " | " ++ v]) := by
  rw [fieldChunk]
  rw [if_neg (by simp [hn, hv])]
  dsimp only
  split <;> rfl

/-- C6.  The field compaction rule, for any document, any field index and
any escape collaborator: with the resolved name and value non-empty strings,
the entries the loop emits for that field are the bold name followed by the
block-quoted value exactly when the resolved inline is the literal `False`,
or the rendered bold name plus the raw value exceed 78 characters, or either
contains a line break — and the single line `name | value` otherwise. -/
theorem c6_field_compaction (emd : String → String) (pe : ProxyEmbed)
    (i : Nat) (inl : Val) (n v : String) (es : List String)
    (hi : i < pe.base.fields.length)
    (hinl : resolveV pe ["_fields", natStr i, "inline"] = inl)
    (hnm : resolveV pe ["_fields", natStr i, "name"] = .pystr n) (hn : n ≠ "")
    (hvl : resolveV pe ["_fields", natStr i, "value"] = .pystr v) (hv : v ≠ "")
    (hes : unwrapEntries emd pe = some es) :
    ∃ pre post, es = pre ++
      (if (isPyFalse inl
            || decide (78 < ("**" ++ emd n ++ "**").length + v.length)
            || ("**" ++ emd n ++ "**").data.contains '\n'
            || v.data.contains '\n') = true
       then ["**" ++ emd n ++ "**", _quote v]
       else ["**" ++ emd n ++ "**" ++ " | " ++ v]) ++ post := by
  rw [unwrapEntries] at hes
  rcases Option.bind_eq_some.mp hes with ⟨u1, hu1, hes⟩
  rcases Option.bind_eq_some.mp hes with ⟨u2, hu2, hes⟩
  rcases Option.bind_eq_some.mp hes with ⟨u3, hu3, hes⟩
  rcases Option.bind_eq_some.mp hes with ⟨u4, hu4, hes⟩
  rcases Option.bind_eq_some.mp hes with ⟨u6, hu6, hes⟩
  rcases Option.bind_eq_some.mp hes with ⟨u7, hu7, hes⟩
  rcases Option.bind_eq_some.mp hes with ⟨u9, hu9, hes⟩
  rcases Option.bind_eq_some.mp hes with ⟨u11, hu11, hes⟩
  have hcc : fieldChunk emd (resolveV pe ["_fields", natStr i, "inline"])
      (resolveV pe ["_fields", natStr i, "name"])
      (resolveV pe ["_fields", natStr i, "value"]) =
      some (if (isPyFalse inl
              || decide (78 < ("**" ++ emd n ++ "**").length + v.length)
              || ("**" ++ emd n ++ "**").data.contains '\n'
              || v.data.contains '\n') = true
            then ["**" ++ emd n ++ "**", _quote v]
            else ["**" ++ emd n ++ "**" ++ " | " ++ v]) := by
    rw [hinl, hnm, hvl, fieldChunk_eq emd inl n v hn hv]
  rcases fieldsFoldAux_chunk emd pe (List.range pe.base.fields.length)
      (appendSep u7) u9 i _ (List.mem_range.mpr hi) hu9 hcc with ⟨pre, post, hdec⟩
  rcases appendSep_extends u9 with ⟨t1, ht1⟩
  rcases urlBlock_extends _ _ _ hu11 with ⟨t2, ht2⟩
  rcases footerBlock_extends _ _ _ _ _ hes with ⟨t3, ht3⟩
  refine ⟨pre, post ++ t1 ++ t2 ++ t3, ?_⟩
  rw [ht3, ht2, ht1, hdec]
  simp [List.append_assoc]

/-- C6 witness: the scenario document's single field takes the compact
single-line form. -/
theorem c6_witness :
    ∃ pre post, (["**T**", "", "> D", "", "**N** | V", ""] : List String) = pre ++
      (if (isPyFalse (Val.pybool true)
            || decide (78 < ("**" ++ (fun s => s) "N" ++ "**").length + ("V" : String).length)
            || ("**" ++ (fun s => s) "N" ++ "**").data.contains '\n'
            || ("V" : String).data.contains '\n') = true
       then ["**" ++ (fun s => s) "N" ++ "**", _quote "V"]
       else ["**" ++ (fun s => s) "N" ++ "**" ++ " | " ++ "V"]) ++ post :=
  c6_field_compaction (fun s => s) docScenario 0 (Val.pybool true) "N" "V"
    ["**T**", "", "> D", "", "**N** | V", ""] (by decide) rfl rfl (by decide) rfl
    (by decide) rfl

/-! Success lemmas for C10: well-formed resolved values never raise. -/

theorem resolveV_eq (pe : ProxyEmbed) (attrs : List String) (v : Val)
    (h : unwrapOverwrite pe attrs = some v) : resolveV pe attrs = v := by
  rw [resolveV, h]
  rfl

theorem pyGet_fieldVal_name (f : BField) : pyGet (fieldVal f) "name" = .pystr f.name := rfl

theorem pyGet_fieldVal_value (f : BField) : pyGet (fieldVal f) "value" = .pystr f.value := rfl

/-- A resolved scalar attribute that unwrap can render: absent or a string. -/
def ScalarStrOk (v : Val) : Prop := v = Val.pynone ∨ ∃ s, v = Val.pystr s

theorem blockApp_ok (v : Val) (f : String → String) (acc : List String)
    (h : ScalarStrOk v) : ∃ r, blockApp v f acc = some r := by
  rcases h with rfl | ⟨s, rfl⟩
  · exact ⟨acc, rfl⟩
  · rw [blockApp]
    by_cases ht : (Val.pystr s).truthy = true
    · rw [if_pos ht]
      exact ⟨acc ++ [f s], rfl⟩
    · rw [if_neg ht]
      exact ⟨acc, rfl⟩

theorem urlBlock_ok (v : Val) (acc : List String) (h : ScalarStrOk v) :
    ∃ r, urlBlock v acc = some r := by
  rcases h with rfl | ⟨s, rfl⟩
  · exact ⟨acc, rfl⟩
  · rw [urlBlock]
    by_cases ht : (Val.pystr s).truthy = true
    · rw [if_pos ht]
      exact ⟨if s.startsWith "attachment://" = true then acc else acc ++ [s], rfl⟩
    · rw [if_neg ht]
      exact ⟨acc, rfl⟩

theorem footerBlock_ok (emd : String → String) (text ts : Val) (acc : List String)
    (h1 : ScalarStrOk text)
    (h2 : ts = Val.pynone ∨ ts = Val.pystr "" ∨ ∃ t, ts = Val.pytime t) :
    ∃ r, footerBlock emd text ts acc = some r := by
  have hta : text.truthy = true → ∃ s, text.asStr? = some s := by
    rcases h1 with rfl | ⟨s, rfl⟩
    · intro h
      exact absurd h (by simp [Val.truthy])
    · intro _
      exact ⟨s, rfl⟩
  have htsa : ts.truthy = true → ∃ t, ts.asTime? = some t := by
    rcases h2 with rfl | rfl | ⟨t, rfl⟩
    · intro h
      exact absurd h (by simp [Val.truthy])
    · intro h
      exact absurd h (by simp [Val.truthy])
    · intro _
      exact ⟨t, rfl⟩
  rw [footerBlock]
  by_cases hb : (text.truthy && ts.truthy) = true
  · rw [if_pos hb]
    rcases hta (Bool.and_eq_true_iff.mp hb).1 with ⟨s, hs⟩
    rcases htsa (Bool.and_eq_true_iff.mp hb).2 with ⟨t, ht⟩
    rw [hs, ht]
    exact ⟨_, rfl⟩
  · rw [if_neg hb]
    by_cases h2' : text.truthy = true
    · rw [if_pos h2']
      rcases hta h2' with ⟨s, hs⟩
      rw [hs]
      exact ⟨_, rfl⟩
    · rw [if_neg h2']
      by_cases h3' : ts.truthy = true
      · rw [if_pos h3']
        rcases htsa h3' with ⟨t, ht⟩
        rw [ht]
        exact ⟨_, rfl⟩
      · rw [if_neg h3']
        exact ⟨acc, rfl⟩

theorem fieldsFoldAux_ok (emd : String → String) (pe : ProxyEmbed) :
    ∀ idxs : List Nat,
      (∀ i ∈ idxs, ∃ n v,
        resolveV pe ["_fields", natStr i, "name"] = .pystr n ∧ n ≠ "" ∧
        resolveV pe ["_fields", natStr i, "value"] = .pystr v ∧ v ≠ "") →
      ∀ acc, ∃ r, fieldsFoldAux emd pe acc idxs = some r := by
  intro idxs
  induction idxs with
  | nil =>
      intro _ acc
      exact ⟨acc, rfl⟩
  | cons i rest ih =>
      intro hgood acc
      rcases hgood i (List.mem_cons_self i rest) with ⟨n, v, hnm, hn, hvl, hv⟩
      rw [fieldsFoldAux, hnm, hvl,
        fieldChunk_eq emd (resolveV pe ["_fields", natStr i, "inline"]) n v hn hv,
        option_bind_some]
      exact ih (fun j hj => hgood j (List.mem_cons_of_mem i hj)) _

/-- The base document and non-empty string overwrite values make every
field's resolved name and value a non-empty string. -/
theorem resolved_fields_good (pe : ProxyEmbed)
    (hbase : ∀ f ∈ pe.base.fields, f.name ≠ "" ∧ f.value ≠ "")
    (hovn : ∀ i : Nat, owFieldV pe.overwrites i "name" = Val.pynone ∨
        ∃ s, owFieldV pe.overwrites i "name" = Val.pystr s ∧ s ≠ "")
    (hovv : ∀ i : Nat, owFieldV pe.overwrites i "value" = Val.pynone ∨
        ∃ s, owFieldV pe.overwrites i "value" = Val.pystr s ∧ s ≠ "") :
    ∀ i, i < pe.base.fields.length →
      ∃ n v, resolveV pe ["_fields", natStr i, "name"] = .pystr n ∧ n ≠ "" ∧
        resolveV pe ["_fields", natStr i, "value"] = .pystr v ∧ v ≠ "" := by
  intro i hi
  have hrn := resolveV_eq pe _ _ (resolve_field pe i "name" (by decide) (by decide))
  have hrv := resolveV_eq pe _ _ (resolve_field pe i "value" (by decide) (by decide))
  have hget : pe.base.fields.get? i = some (pe.base.fields.get ⟨i, hi⟩) :=
    List.get?_eq_get hi
  have hmem : pe.base.fields.get ⟨i, hi⟩ ∈ pe.base.fields := List.get_mem _ _ _
  have hbf := hbase _ hmem
  have hbn : baseFieldV pe.base i "name"
      = Val.pystr (pe.base.fields.get ⟨i, hi⟩).name := by
    rw [baseFieldV, hget]
    exact pyGet_fieldVal_name _
  have hbv : baseFieldV pe.base i "value"
      = Val.pystr (pe.base.fields.get ⟨i, hi⟩).value := by
    rw [baseFieldV, hget]
    exact pyGet_fieldVal_value _
  rcases hovn i with hno | ⟨s, hs, hsne⟩
  · have h1 : resolveV pe ["_fields", natStr i, "name"]
        = Val.pystr (pe.base.fields.get ⟨i, hi⟩).name := by
      rw [hrn, hno]
      simp [Val.isNone, hbn]
    rcases hovv i with hvo | ⟨s2, hs2, hs2ne⟩
    · have h2 : resolveV pe ["_fields", natStr i, "value"]
          = Val.pystr (pe.base.fields.get ⟨i, hi⟩).value := by
        rw [hrv, hvo]
        simp [Val.isNone, hbv]
      exact ⟨_, _, h1, hbf.1, h2, hbf.2⟩
    · have h2 : resolveV pe ["_fields", natStr i, "value"] = Val.pystr s2 := by
        rw [hrv, hs2]
        simp [Val.isNone]
      exact ⟨_, _, h1, hbf.1, h2, hs2ne⟩
  · have h1 : resolveV pe ["_fields", natStr i, "name"] = Val.pystr s := by
      rw [hrn, hs]
      simp [Val.isNone]
    rcases hovv i with hvo | ⟨s2, hs2, hs2ne⟩
    · have h2 : resolveV pe ["_fields", natStr i, "value"]
          = Val.pystr (pe.base.fields.get ⟨i, hi⟩).value := by
        rw [hrv, hvo]
        simp [Val.isNone, hbv]
      exact ⟨_, _, h1, hsne, h2, hbf.2⟩
    · have h2 : resolveV pe ["_fields", natStr i, "value"] = Val.pystr s2 := by
        rw [hrv, hs2]
        simp [Val.isNone]
      exact ⟨_, _, h1, hsne, h2, hs2ne⟩

/-- The base document of the C10 counterexample. -/
def badBase : BaseEmbed := { emptyBase with fields := [⟨"N", "V", some true⟩] }

/-- An overwrite view setting field 0's name to the truthy non-string
`True` — not an empty value, yet rendering raises. -/
def badOverwrites : Overwrites :=
  { emptyOverwrites with fields := [(0, [("name", Val.pybool true)])] }

/-- The C10 counterexample document. -/
def docBadOverwrite : ProxyEmbed := ⟨badBase, badOverwrites⟩

/-- C10.  The claim fails as stated: with every base field name and value
non-empty and the overwrite view setting field 0's name to a truthy
(non-empty) value, the field-loop assertion itself holds, yet `unwrap`
still raises (escaping a non-string) — so "unwrap never raises" does not
follow from the stated precondition. -/
theorem c10_counterexample :
    (∀ f ∈ docBadOverwrite.base.fields, f.name ≠ "" ∧ f.value ≠ "") ∧
    (owFieldV docBadOverwrite.overwrites 0 "name").truthy = true ∧
    unwrap (fun s => s) docBadOverwrite = Option.none := by
  refine ⟨?_, rfl, rfl⟩
  intro f hf
  rcases List.mem_singleton.mp hf with rfl
  exact ⟨by decide, by decide⟩

/-- C10 (amended).  If every base field has a non-empty name and value, the
overwrite view sets field names and values only to non-empty strings when it
sets them at all, and the remaining resolved attributes are well formed
(text attributes resolve to strings or absent, the timestamp to an instant,
explicit empty, or absent), then the field-loop assertion holds for every
field and `unwrap` returns a rendering — it never raises. -/
theorem c10_assert_and_no_raise (emd : String → String) (pe : ProxyEmbed)
    (hbase : ∀ f ∈ pe.base.fields, f.name ≠ "" ∧ f.value ≠ "")
    (hovn : ∀ i : Nat, owFieldV pe.overwrites i "name" = Val.pynone ∨
        ∃ s, owFieldV pe.overwrites i "name" = Val.pystr s ∧ s ≠ "")
    (hovv : ∀ i : Nat, owFieldV pe.overwrites i "value" = Val.pynone ∨
        ∃ s, owFieldV pe.overwrites i "value" = Val.pystr s ∧ s ≠ "")
    (hsc : ∀ p ∈ [["title"], ["url"], ["author.name"], ["author.url"],
        ["thumbnail.url"], ["description"], ["image.url"], ["footer.text"]],
        ScalarStrOk (resolveV pe p))
    (hts : resolveV pe ["timestamp"] = Val.pynone ∨
        resolveV pe ["timestamp"] = Val.pystr "" ∨
        ∃ t, resolveV pe ["timestamp"] = Val.pytime t) :
    (∀ i, i < pe.base.fields.length →
        (resolveV pe ["_fields", natStr i, "name"]).truthy = true ∧
        (resolveV pe ["_fields", natStr i, "value"]).truthy = true) ∧
    ∃ out, unwrap emd pe = some out := by
  have hgood := resolved_fields_good pe hbase hovn hovv
  constructor
  · intro i hi
    rcases hgood i hi with ⟨n, v, hnm, hn, hvl, hv⟩
    rw [hnm, hvl]
    exact ⟨(pystr_truthy n).mpr hn, (pystr_truthy v).mpr hv⟩
  · rcases blockApp_ok (resolveV pe ["title"]) (fun t => "**" ++ emd t ++ "**") []
      (hsc _ (by simp)) with ⟨u1, hu1⟩
    rcases blockApp_ok (resolveV pe ["url"]) (fun u => "> " ++ u) u1
      (hsc _ (by simp)) with ⟨u2, hu2⟩
    rcases blockApp_ok (resolveV pe ["author.name"]) (fun n => "*" ++ emd n ++ "*") u2
      (hsc _ (by simp)) with ⟨u3, hu3⟩
    rcases blockApp_ok (resolveV pe ["author.url"]) (fun u => "<" ++ u ++ ">") u3
      (hsc _ (by simp)) with ⟨u4, hu4⟩
    rcases urlBlock_ok (resolveV pe ["thumbnail.url"]) (appendSep u4)
      (hsc _ (by simp)) with ⟨u6, hu6⟩
    rcases blockApp_ok (resolveV pe ["description"]) _quote u6
      (hsc _ (by simp)) with ⟨u7, hu7⟩
    rcases fieldsFoldAux_ok emd pe (List.range pe.base.fields.length)
      (fun i hi => hgood i (List.mem_range.mp hi)) (appendSep u7) with ⟨u9, hu9⟩
    rcases urlBlock_ok (resolveV pe ["image.url"]) (appendSep u9)
      (hsc _ (by simp)) with ⟨u11, hu11⟩
    rcases footerBlock_ok emd (resolveV pe ["footer.text"]) (resolveV pe ["timestamp"])
      u11 (hsc _ (by simp)) hts with ⟨u12, hu12⟩
    refine ⟨joinNL u12, ?_⟩
    rw [unwrap, unwrapEntries, hu1, option_bind_some, hu2, option_bind_some,
      hu3, option_bind_some, hu4, option_bind_some, hu6, option_bind_some,
      hu7, option_bind_some, hu9, option_bind_some, hu11, option_bind_some, hu12]
    rfl

/-- C10 witness: the scenario document satisfies all preconditions. -/
theorem c10_witness :
    ∃ out, unwrap (fun s => s) docScenario = some out := by
  refine (c10_assert_and_no_raise (fun s => s) docScenario ?_ ?_ ?_ ?_ ?_).2
  · intro f hf
    rcases List.mem_singleton.mp hf with rfl
    exact ⟨by decide, by decide⟩
  · intro i
    exact Or.inl rfl
  · intro i
    exact Or.inl rfl
  · intro p hp
    fin_cases hp
    · exact Or.inr ⟨"T", rfl⟩
    · exact Or.inl rfl
    · exact Or.inl rfl
    · exact Or.inl rfl
    · exact Or.inl rfl
    · exact Or.inr ⟨"D", rfl⟩
    · exact Or.inl rfl
    · exact Or.inl rfl
  · exact Or.inl rfl

/-! Blank-line discipline (C5): entry solidity and the buffer invariant. -/

/-- A string without LF characters. -/
def nlFree (s : String) : Prop := '\n' ∉ s.data

/-- An entry all of whose lines are nonempty. -/
def solidEntry (e : String) : Prop := ∀ ln ∈ splitCh '\n' e.data, ln ≠ []

/-- The invariant `unwrap` maintains on its entry buffer: every entry is a
blank separator or solid, separators are never adjacent, and the buffer
never starts with a separator. -/
def EntriesInv (es : List String) : Prop :=
  (∀ e ∈ es, e = "" ∨ solidEntry e) ∧
  List.Chain' (fun a b => ¬(a = "" ∧ b = "")) es ∧
  es.head? ≠ some ""

theorem solid_of_nlFree (e : String) (hnl : nlFree e) (hne : e ≠ "") : solidEntry e := by
  intro ln hln
  rw [splitCh_not_mem '\n' e.data hnl] at hln
  rcases List.mem_singleton.mp hln with rfl
  exact fun h => hne ((str_eq_empty_iff e).mpr h)

theorem solid_ne_empty (e : String) (h : solidEntry e) : e ≠ "" := by
  intro he
  subst he
  exact h [] (by simp [splitCh]) rfl

theorem splitKeepNL_not_mem (l : List Char) (h : '\n' ∉ l) (hne : l ≠ []) :
    splitKeepNL l = [l] := by
  induction l with
  | nil => exact absurd rfl hne
  | cons c rest ih =>
      simp only [List.mem_cons, not_or] at h
      simp only [splitKeepNL]
      rw [if_neg (fun hc => h.1 hc.symm)]
      cases rest with
      | nil => rfl
      | cons d r => rw [ih h.2 (by simp)]

theorem quote_solid (s : String) (hnl : nlFree s) (hne : s ≠ "") :
    solidEntry (_quote s) := by
  have hdata : (_quote s).data = '>' :: ' ' :: s.data := by
    show (((splitKeepNL s.data).map (fun l => '>' :: ' ' :: l)).flatten) = _
    rw [splitKeepNL_not_mem s.data hnl (fun h => hne ((str_eq_empty_iff s).mpr h))]
    simp
  intro ln hln
  rw [hdata, splitCh_not_mem] at hln
  · rcases List.mem_singleton.mp hln with rfl
    simp
  · simp only [List.mem_cons, not_or]
    exact ⟨by decide, by decide, hnl⟩

theorem nlFree_append (a b : String) (ha : nlFree a) (hb : nlFree b) :
    nlFree (a ++ b) := by
  rw [nlFree, String.data_append]
  simp only [List.mem_append, not_or]
  exact ⟨ha, hb⟩

theorem nlFree_natStr (n : Nat) : nlFree (natStr n) := by
  intro h
  have := natStrChars_all_digit n '\n' (by rwa [natStr] at h)
  exact Bool.noConfusion this

theorem nlFree_intStr (t : Int) : nlFree (intStr t) := by
  rw [intStr]
  split
  · exact nlFree_append _ _ (by decide : '\n' ∉ ("-" : String).data) (nlFree_natStr _)
  · exact nlFree_natStr _

theorem nlFree_tsMarker (t : Int) : nlFree (tsMarker t) :=
  nlFree_append _ _
    (nlFree_append _ _ (by decide : '\n' ∉ ("<t:" : String).data) (nlFree_intStr t))
    (by decide : '\n' ∉ (">" : String).data)

theorem inv_append_solid (es : List String) (e : String) (hinv : EntriesInv es)
    (hsol : solidEntry e) : EntriesInv (es ++ [e]) := by
  obtain ⟨h1, h2, h3⟩ := hinv
  have hene : e ≠ "" := solid_ne_empty e hsol
  refine ⟨?_, ?_, ?_⟩
  · intro x hx
    rcases List.mem_append.mp hx with h | h
    · exact h1 x h
    · rcases List.mem_singleton.mp h with rfl
      exact Or.inr hsol
  · rw [List.chain'_append]
    refine ⟨h2, List.chain'_singleton e, ?_⟩
    intro x _ y hy
    simp only [List.head?_cons, Option.mem_def, Option.some.injEq] at hy
    subst hy
    exact fun hc => hene hc.2
  · cases es with
    | nil => simpa using hene
    | cons a r => simpa using h3

theorem inv_appendSep (es : List String) (hinv : EntriesInv es) :
    EntriesInv (appendSep es) := by
  obtain ⟨h1, h2, h3⟩ := hinv
  rcases hl : es.getLast? with _ | last
  · rw [appendSep, hl]
    exact ⟨h1, h2, h3⟩
  · by_cases he : last = ""
    · rw [appendSep, hl]
      simp only [if_pos he]
      exact ⟨h1, h2, h3⟩
    · rw [appendSep, hl]
      simp only [if_neg he]
      refine ⟨?_, ?_, ?_⟩
      · intro x hx
        rcases List.mem_append.mp hx with h | h
        · exact h1 x h
        · rcases List.mem_singleton.mp h with rfl
          exact Or.inl rfl
      · rw [List.chain'_append]
        refine ⟨h2, List.chain'_singleton _, ?_⟩
        intro x hx y hy
        rw [hl] at hx
        simp only [Option.mem_def, Option.some.injEq] at hx
        subst hx
        exact fun hc => he hc.1
      · cases es with
        | nil => simp at hl
        | cons a r => simpa using h3

/-! Blank-line discipline (C5): what each block appends. -/

theorem asStr?_some (v : Val) (s : String) (h : v.asStr? = some s) : v = .pystr s := by
  rcases v with _ | s' | b | t' | l | l | l | l | l <;> simp [Val.asStr?] at h
  rw [h]

theorem blockApp_some_cases (v : Val) (f : String → String) (acc r : List String)
    (h : blockApp v f acc = some r) :
    r = acc ∨ ∃ s, v = .pystr s ∧ s ≠ "" ∧ r = acc ++ [f s] := by
  rw [blockApp] at h
  by_cases ht : v.truthy = true
  · rw [if_pos ht] at h
    rcases hv : v.asStr? with _ | s
    · rw [hv] at h
      exact absurd h (by simp)
    · rw [hv] at h
      simp only [Option.map_some'] at h
      have hvs := asStr?_some v s hv
      subst hvs
      exact Or.inr ⟨s, rfl, (pystr_truthy s).mp ht, (Option.some.inj h).symm⟩
  · rw [if_neg ht] at h
    exact Or.inl (Option.some.inj h).symm

theorem urlBlock_some_cases (v : Val) (acc r : List String)
    (h : urlBlock v acc = some r) :
    r = acc ∨ ∃ s, v = .pystr s ∧ s ≠ "" ∧ r = acc ++ [s] := by
  rw [urlBlock] at h
  by_cases ht : v.truthy = true
  · rw [if_pos ht] at h
    rcases hv : v.asStr? with _ | s
    · rw [hv] at h
      exact absurd h (by simp)
    · rw [hv] at h
      simp only [Option.map_some'] at h
      have hvs := asStr?_some v s hv
      subst hvs
      by_cases hs : s.startsWith "attachment://" = true
      · rw [if_pos hs] at h
        exact Or.inl (Option.some.inj h).symm
      · rw [if_neg hs] at h
        exact Or.inr ⟨s, rfl, (pystr_truthy s).mp ht, (Option.some.inj h).symm⟩
  · rw [if_neg ht] at h
    exact Or.inl (Option.some.inj h).symm

theorem asTime?_some (v : Val) (t : Int) (h : v.asTime? = some t) : v = .pytime t := by
  rcases v with _ | s' | b | t' | l | l | l | l | l <;> simp [Val.asTime?] at h
  rw [h]

theorem footerBlock_some_cases (emd : String → String) (text ts : Val)
    (acc r : List String) (h : footerBlock emd text ts acc = some r) :
    r = acc ∨
    (∃ s t, text = .pystr s ∧ s ≠ "" ∧ r = acc ++ [emd s ++ " • " ++ tsMarker t]) ∨
    (∃ s, text = .pystr s ∧ s ≠ "" ∧ r = acc ++ [emd s]) ∨
    (∃ t, r = acc ++ [tsMarker t]) := by
  rw [footerBlock] at h
  by_cases h1 : (text.truthy && ts.truthy) = true
  · rw [if_pos h1] at h
    rcases hv : text.asStr? with _ | s
    · rw [hv] at h
      exact absurd h (by simp)
    · rw [hv] at h
      rcases hw : ts.asTime? with _ | t
      · rw [hw] at h
        exact absurd h (by simp)
      · rw [hw] at h
        simp only [Option.some_bind, Option.map_some'] at h
        have hts := asStr?_some text s hv
        refine Or.inr (Or.inl ⟨s, t, hts, ?_, (Option.some.inj h).symm⟩)
        rw [hts] at h1
        exact (pystr_truthy s).mp (Bool.and_eq_true_iff.mp h1).1
  · rw [if_neg h1] at h
    by_cases h2 : text.truthy = true
    · rw [if_pos h2] at h
      rcases hv : text.asStr? with _ | s
      · rw [hv] at h
        exact absurd h (by simp)
      · rw [hv] at h
        simp only [Option.map_some'] at h
        have hts := asStr?_some text s hv
        refine Or.inr (Or.inr (Or.inl ⟨s, hts, ?_, (Option.some.inj h).symm⟩))
        rw [hts] at h2
        exact (pystr_truthy s).mp h2
    · rw [if_neg h2] at h
      by_cases h3 : ts.truthy = true
      · rw [if_pos h3] at h
        rcases hw : ts.asTime? with _ | t
        · rw [hw] at h
          exact absurd h (by simp)
        · rw [hw] at h
          simp only [Option.map_some'] at h
          exact Or.inr (Or.inr (Or.inr ⟨t, (Option.some.inj h).symm⟩))
      · rw [if_neg h3] at h
        exact Or.inl (Option.some.inj h).symm

theorem fieldChunk_some_shape (emd : String → String) (inl nm vl : Val)
    (c : List String) (h : fieldChunk emd inl nm vl = some c) :
    ∃ n v, nm = .pystr n ∧ vl = .pystr v ∧ n ≠ "" ∧ v ≠ "" ∧
      (c = ["**" ++ emd n ++ "**", _quote v] ∨
       (c = ["**" ++ emd n ++ "**" ++ " | " ++ v] ∧
        ("**" ++ emd n ++ "**").data.contains '\n' = false ∧
        v.data.contains '\n' = false)) := by
  rcases nm with _ | n | b | t' | l | l | l | l | l <;>
    rcases vl with _ | v | b2 | t2 | l2 | l2 | l2 | l2 | l2 <;>
    try (exact Option.noConfusion h)
  rw [fieldChunk] at h
  split at h
  · exact absurd h (by simp)
  · next hg =>
      have hn : n ≠ "" := by
        intro hc
        exact hg (by simp [hc])
      have hv : v ≠ "" := by
        intro hc
        exact hg (by simp [hc])
      refine ⟨n, v, rfl, rfl, hn, hv, ?_⟩
      dsimp only at h
      split at h
      · exact Or.inl (Option.some.inj h).symm
      · next hcond =>
          refine Or.inr ⟨(Option.some.inj h).symm, ?_, ?_⟩
          · rcases hb : ("**" ++ emd n ++ "**").data.contains '\n'
            · rfl
            · exact absurd (by rw [hb]; simp) hcond
          · rcases hb : v.data.contains '\n'
            · rfl
            · exact absurd (by rw [hb]; simp) hcond

/-! Blank-line discipline (C5): invariant preservation along the renderer. -/

theorem contains_false_not_mem (l : List Char) (c : Char)
    (h : l.contains c = false) : c ∉ l := by
  intro hm
  have h2 : l.contains c = true := List.elem_iff.mpr hm
  rw [h] at h2
  exact Bool.noConfusion h2

theorem str_append_ne_empty (a b : String) (h : a ≠ "" ∨ b ≠ "") : a ++ b ≠ "" := by
  intro hc
  rw [str_eq_empty_iff, String.data_append, List.append_eq_nil] at hc
  rcases h with h | h
  · exact h ((str_eq_empty_iff a).mpr hc.1)
  · exact h ((str_eq_empty_iff b).mpr hc.2)

theorem blockApp_inv (v : Val) (f : String → String) (acc r : List String)
    (h : blockApp v f acc = some r) (hinv : EntriesInv acc)
    (hs : ∀ s, v = .pystr s → s ≠ "" → solidEntry (f s)) : EntriesInv r := by
  rcases blockApp_some_cases v f acc r h with rfl | ⟨s, hv, hne, rfl⟩
  · exact hinv
  · exact inv_append_solid acc (f s) hinv (hs s hv hne)

theorem urlBlock_inv (v : Val) (acc r : List String)
    (h : urlBlock v acc = some r) (hinv : EntriesInv acc)
    (hs : ∀ s, v = .pystr s → nlFree s) : EntriesInv r := by
  rcases urlBlock_some_cases v acc r h with rfl | ⟨s, hv, hne, rfl⟩
  · exact hinv
  · exact inv_append_solid acc s hinv (solid_of_nlFree s (hs s hv) hne)

theorem footerBlock_inv (emd : String → String) (text ts : Val) (acc r : List String)
    (h : footerBlock emd text ts acc = some r) (hinv : EntriesInv acc)
    (htx : ∀ s, text = .pystr s → s ≠ "" → nlFree (emd s) ∧ emd s ≠ "") :
    EntriesInv r := by
  rcases footerBlock_some_cases emd text ts acc r h with
    rfl | ⟨s, t, hv, hne, rfl⟩ | ⟨s, hv, hne, rfl⟩ | ⟨t, rfl⟩
  · exact hinv
  · refine inv_append_solid acc _ hinv (solid_of_nlFree _ ?_ ?_)
    · exact nlFree_append _ _
        (nlFree_append _ _ (htx s hv hne).1 (by decide : '\n' ∉ (" • " : String).data))
        (nlFree_tsMarker t)
    · exact str_append_ne_empty _ _
        (Or.inl (str_append_ne_empty _ _ (Or.inr (by decide))))
  · exact inv_append_solid acc _ hinv
      (solid_of_nlFree _ (htx s hv hne).1 (htx s hv hne).2)
  · refine inv_append_solid acc _ hinv (solid_of_nlFree _ (nlFree_tsMarker t) ?_)
    exact str_append_ne_empty _ _ (Or.inr (by decide))

theorem fieldsFoldAux_inv (emd : String → String) (pe : ProxyEmbed) :
    ∀ idxs : List Nat, ∀ acc r : List String,
      (∀ i ∈ idxs,
        (∀ s, resolveV pe ["_fields", natStr i, "name"] = .pystr s → nlFree (emd s)) ∧
        (∀ s, resolveV pe ["_fields", natStr i, "value"] = .pystr s → nlFree s)) →
      EntriesInv acc → fieldsFoldAux emd pe acc idxs = some r → EntriesInv r := by
  intro idxs
  induction idxs with
  | nil =>
      intro acc r _ hinv h
      rw [fieldsFoldAux] at h
      exact (Option.some.inj h) ▸ hinv
  | cons i rest ih =>
      intro acc r hgood hinv h
      rw [fieldsFoldAux] at h
      rcases Option.bind_eq_some.mp h with ⟨c, hc, hrec⟩
      rcases fieldChunk_some_shape emd _ _ _ c hc with ⟨n, v, hnm, hvl, hn, hv, hshape⟩
      have hgi := hgood i (List.mem_cons_self i rest)
      have hinv2 : EntriesInv (acc ++ c) := by
        rcases hshape with rfl | ⟨rfl, hb1, hb2⟩
        · have hbold : solidEntry ("**" ++ emd n ++ "**") := by
            apply solid_of_nlFree
            · exact nlFree_append _ _
                (nlFree_append _ _ (by decide : '\n' ∉ ("**" : String).data)
                  (hgi.1 n hnm))
                (by decide : '\n' ∉ ("**" : String).data)
            · exact str_append_ne_empty _ _ (Or.inr (by decide))
          have hq : solidEntry (_quote v) := quote_solid v (hgi.2 v hvl) hv
          have hsplit2 : acc ++ ["**" ++ emd n ++ "**", _quote v]
              = (acc ++ ["**" ++ emd n ++ "**"]) ++ [_quote v] := by simp
          rw [hsplit2]
          exact inv_append_solid _ _ (inv_append_solid _ _ hinv hbold) hq
        · apply inv_append_solid _ _ hinv
          apply solid_of_nlFree
          · exact nlFree_append _ _
              (nlFree_append _ _ (contains_false_not_mem _ _ hb1)
                (by decide : '\n' ∉ (" | " : String).data))
              (contains_false_not_mem _ _ hb2)
          · exact str_append_ne_empty _ _ (Or.inr hv)
      exact ih (acc ++ c) r (fun j hj => hgood j (List.mem_cons_of_mem i hj)) hinv2 hrec

theorem lines_joinNL : ∀ es : List String, es ≠ [] →
    splitCh '\n' (joinNL es).data
      = ((es.map (fun e => splitCh '\n' e.data)).flatten) := by
  intro es
  induction es with
  | nil => intro h; exact absurd rfl h
  | cons a rest ih =>
      intro _
      cases rest with
      | nil => simp [joinNL]
      | cons b r =>
          have hj : joinNL (a :: b :: r) = a ++ "\n" ++ joinNL (b :: r) := rfl
          rw [hj]
          have hdata : (a ++ "\n" ++ joinNL (b :: r)).data
              = a.data ++ '\n' :: (joinNL (b :: r)).data := by
            simp [String.data_append]
          rw [hdata, splitCh_append, ih (by simp)]
          simp

theorem chain_of_all_ne (L : List (List Char)) (h : ∀ x ∈ L, x ≠ []) :
    List.Chain' (fun a b => ¬(a = [] ∧ b = [])) L := by
  induction L with
  | nil => exact List.chain'_nil
  | cons a t ih =>
      rw [List.chain'_cons']
      refine ⟨?_, ih (fun x hx => h x (List.mem_cons_of_mem a hx))⟩
      intro y _
      exact fun hc => h a (List.mem_cons_self a t) hc.1

theorem flat_lines_chain : ∀ es : List String,
    (∀ e ∈ es, e = "" ∨ solidEntry e) →
    List.Chain' (fun a b => ¬(a = "" ∧ b = "")) es →
    List.Chain' (fun a b => ¬(a = [] ∧ b = []))
      ((es.map (fun e => splitCh '\n' e.data)).flatten) := by
  intro es
  induction es with
  | nil =>
      intro _ _
      exact List.chain'_nil
  | cons e rest ih =>
      intro hall hch
      rw [List.map_cons, List.flatten_cons, List.chain'_append]
      refine ⟨?_, ih (fun x hx => hall x (List.mem_cons_of_mem e hx)) hch.tail, ?_⟩
      · rcases hall e (List.mem_cons_self e rest) with rfl | hsol
        · exact List.chain'_singleton _
        · exact chain_of_all_ne _ hsol
      · intro x hx y hy
        rcases hall e (List.mem_cons_self e rest) with he | hsol
        · -- e is the blank separator: the next entry must be solid
          cases rest with
          | nil => simp at hy
          | cons e2 r2 =>
              have he2 : e2 ≠ "" := by
                have hr := List.chain'_cons'.mp hch
                intro hc
                exact hr.1 e2 (by simp) ⟨he, hc⟩
              have hsol2 : solidEntry e2 := by
                rcases hall e2 (by simp) with hc | h2
                · exact absurd hc he2
                · exact h2
              intro hc
              rw [List.map_cons, List.flatten_cons,
                List.head?_append_of_ne_nil _ (splitCh_ne_nil '\n' e2.data)] at hy
              exact hsol2 y (List.mem_of_mem_head? hy) hc.2
        · intro hc
          exact hsol x (List.mem_of_mem_getLast? hx) hc.1

theorem flat_lines_head (es : List String) (hinv : EntriesInv es) (hne : es ≠ []) :
    ((es.map (fun e => splitCh '\n' e.data)).flatten).head? ≠ some [] := by
  cases es with
  | nil => exact absurd rfl hne
  | cons e rest =>
      have he : e ≠ "" := by
        intro hc
        exact hinv.2.2 (by rw [hc]; rfl)
      have hsol : solidEntry e := by
        rcases hinv.1 e (List.mem_cons_self e rest) with hc | h
        · exact absurd hc he
        · exact h
      rw [List.map_cons, List.flatten_cons,
        List.head?_append_of_ne_nil _ (splitCh_ne_nil '\n' e.data)]
      intro hc
      exact hsol [] (List.mem_of_mem_head? (Option.mem_def.mpr hc)) rfl

/-- The eight scalar resolution paths `unwrap` renders directly. -/
def scalarPaths : List (List String) :=
  [["title"], ["url"], ["author.name"], ["author.url"],
   ["thumbnail.url"], ["description"], ["image.url"], ["footer.text"]]

theorem unwrapEntries_inv (emd : String → String) (pe : ProxyEmbed) (es : List String)
    (hes : unwrapEntries emd pe = some es)
    (hemdnl : ∀ s, nlFree s → nlFree (emd s))
    (hemdne : ∀ s, s ≠ "" → emd s ≠ "")
    (hsc : ∀ p ∈ scalarPaths, ∀ s, resolveV pe p = Val.pystr s → nlFree s)
    (hfn : ∀ i, i < pe.base.fields.length →
        ∀ s, resolveV pe ["_fields", natStr i, "name"] = .pystr s → nlFree s)
    (hfv : ∀ i, i < pe.base.fields.length →
        ∀ s, resolveV pe ["_fields", natStr i, "value"] = .pystr s → nlFree s) :
    EntriesInv es := by
  rw [unwrapEntries] at hes
  rcases Option.bind_eq_some.mp hes with ⟨u1, hu1, hes⟩
  rcases Option.bind_eq_some.mp hes with ⟨u2, hu2, hes⟩
  rcases Option.bind_eq_some.mp hes with ⟨u3, hu3, hes⟩
  rcases Option.bind_eq_some.mp hes with ⟨u4, hu4, hes⟩
  rcases Option.bind_eq_some.mp hes with ⟨u6, hu6, hes⟩
  rcases Option.bind_eq_some.mp hes with ⟨u7, hu7, hes⟩
  rcases Option.bind_eq_some.mp hes with ⟨u9, hu9, hes⟩
  rcases Option.bind_eq_some.mp hes with ⟨u11, hu11, hes⟩
  have inv0 : EntriesInv [] := ⟨by simp, List.chain'_nil, by simp⟩
  have inv1 : EntriesInv u1 := by
    refine blockApp_inv _ _ _ _ hu1 inv0 ?_
    intro s hv hne
    refine solid_of_nlFree _ ?_ (str_append_ne_empty _ _ (Or.inr (by decide)))
    exact nlFree_append _ _
      (nlFree_append _ _ (by decide : '\n' ∉ ("**" : String).data)
        (hemdnl s (hsc _ (by simp [scalarPaths]) s hv)))
      (by decide : '\n' ∉ ("**" : String).data)
  have inv2 : EntriesInv u2 := by
    refine blockApp_inv _ _ _ _ hu2 inv1 ?_
    intro s hv _
    refine solid_of_nlFree _ ?_ (str_append_ne_empty _ _ (Or.inl (by decide)))
    exact nlFree_append _ _ (by decide : '\n' ∉ ("> " : String).data)
      (hsc _ (by simp [scalarPaths]) s hv)
  have inv3 : EntriesInv u3 := by
    refine blockApp_inv _ _ _ _ hu3 inv2 ?_
    intro s hv hne
    refine solid_of_nlFree _ ?_ (str_append_ne_empty _ _ (Or.inr (by decide)))
    exact nlFree_append _ _
      (nlFree_append _ _ (by decide : '\n' ∉ ("*" : String).data)
        (hemdnl s (hsc _ (by simp [scalarPaths]) s hv)))
      (by decide : '\n' ∉ ("*" : String).data)
  have inv4 : EntriesInv u4 := by
    refine blockApp_inv _ _ _ _ hu4 inv3 ?_
    intro s hv _
    refine solid_of_nlFree _ ?_ (str_append_ne_empty _ _ (Or.inr (by decide)))
    exact nlFree_append _ _
      (nlFree_append _ _ (by decide : '\n' ∉ ("<" : String).data)
        (hsc _ (by simp [scalarPaths]) s hv))
      (by decide : '\n' ∉ (">" : String).data)
  have inv6 : EntriesInv u6 := by
    refine urlBlock_inv _ _ _ hu6 (inv_appendSep _ inv4) ?_
    intro s hv
    exact hsc _ (by simp [scalarPaths]) s hv
  have inv7 : EntriesInv u7 := by
    refine blockApp_inv _ _ _ _ hu7 inv6 ?_
    intro s hv hne
    exact quote_solid s (hsc _ (by simp [scalarPaths]) s hv) hne
  have inv9 : EntriesInv u9 := by
    refine fieldsFoldAux_inv emd pe _ _ _ ?_ (inv_appendSep _ inv7) hu9
    intro i hi
    exact ⟨fun s h => hemdnl s (hfn i (List.mem_range.mp hi) s h),
           fun s h => hfv i (List.mem_range.mp hi) s h⟩
  have inv11 : EntriesInv u11 := by
    refine urlBlock_inv _ _ _ hu11 (inv_appendSep _ inv9) ?_
    intro s hv
    exact hsc _ (by simp [scalarPaths]) s hv
  refine footerBlock_inv emd _ _ _ _ hes inv11 ?_
  intro s hv hne
  exact ⟨hemdnl s (hsc _ (by simp [scalarPaths]) s hv), hemdne s hne⟩

/-- A document carrying only a title. -/
def docTitleOnly : ProxyEmbed :=
  ⟨{ emptyBase with title := some "T" }, emptyOverwrites⟩

/-- C5.  The claim's "no blank line at the very end" clause fails: a
title-only document renders to `"**T**\n"`, whose final line is blank (the
separator appended after the author block survives to the end). -/
theorem c5_counterexample :
    unwrap (fun s => s) docTitleOnly = some "**T**\n" ∧
      (splitCh '\n' ("**T**\n" : String).data).getLast? = some [] :=
  ⟨rfl, rfl⟩

/-- C5 (amended).  For every document whose rendered leaves are free of
line breaks (every directly rendered scalar attribute and every field name
and value resolves to an LF-free string, and the escape collaborator
preserves LF-freeness and non-emptiness), the rendered text never contains
two consecutive blank lines and never starts with a blank line; a single
blank line may remain at the very end. -/
theorem c5_blank_line_discipline (emd : String → String) (pe : ProxyEmbed)
    (out : String) (hout : unwrap emd pe = some out)
    (hemdnl : ∀ s, nlFree s → nlFree (emd s))
    (hemdne : ∀ s, s ≠ "" → emd s ≠ "")
    (hsc : ∀ p ∈ scalarPaths, ∀ s, resolveV pe p = Val.pystr s → nlFree s)
    (hfn : ∀ i, i < pe.base.fields.length →
        ∀ s, resolveV pe ["_fields", natStr i, "name"] = .pystr s → nlFree s)
    (hfv : ∀ i, i < pe.base.fields.length →
        ∀ s, resolveV pe ["_fields", natStr i, "value"] = .pystr s → nlFree s) :
    List.Chain' (fun a b => ¬(a = [] ∧ b = [])) (splitCh '\n' out.data) ∧
    (out ≠ "" → (splitCh '\n' out.data).head? ≠ some []) := by
  rw [unwrap] at hout
  rcases Option.map_eq_some'.mp hout with ⟨es, hes, rfl⟩
  have hinv := unwrapEntries_inv emd pe es hes hemdnl hemdne hsc hfn hfv
  cases es with
  | nil =>
      constructor
      · exact List.chain'_singleton _
      · intro h
        exact absurd rfl h
  | cons e rest =>
      rw [lines_joinNL (e :: rest) (by simp)]
      exact ⟨flat_lines_chain _ hinv.1 hinv.2.1,
             fun _ => flat_lines_head _ hinv (by simp)⟩

/-- C5 witness: the scenario document meets the line-break-free conditions
and its rendering has no double blank line and no blank first line. -/
theorem c5_witness :
    List.Chain' (fun a b => ¬(a = [] ∧ b = []))
      (splitCh '\n' ("**T**\n\n> D\n\n**N** | V\n" : String).data) ∧
    (("**T**\n\n> D\n\n**N** | V\n" : String) ≠ "" →
      (splitCh '\n' ("**T**\n\n> D\n\n**N** | V\n" : String).data).head? ≠ some []) := by
  refine c5_blank_line_discipline (fun s => s) docScenario _ rfl
    (fun s h => h) (fun s h => h) ?_ ?_ ?_
  · intro p hp
    fin_cases hp
    · intro s hs
      have h2 : Val.pystr "T" = Val.pystr s := hs
      injection h2 with h3
      subst h3
      exact (by decide : '\n' ∉ ("T" : String).data)
    · intro s hs
      exact Val.noConfusion hs
    · intro s hs
      exact Val.noConfusion hs
    · intro s hs
      exact Val.noConfusion hs
    · intro s hs
      exact Val.noConfusion hs
    · intro s hs
      have h2 : Val.pystr "D" = Val.pystr s := hs
      injection h2 with h3
      subst h3
      exact (by decide : '\n' ∉ ("D" : String).data)
    · intro s hs
      exact Val.noConfusion hs
    · intro s hs
      exact Val.noConfusion hs
  · intro i hi s hs
    have hi1 : i < 1 := hi
    obtain rfl : i = 0 := Nat.lt_one_iff.mp hi1
    have h2 : Val.pystr "N" = Val.pystr s := hs
    injection h2 with h3
    subst h3
    exact (by decide : '\n' ∉ ("N" : String).data)
  · intro i hi s hs
    have hi1 : i < 1 := hi
    obtain rfl : i = 0 := Nat.lt_one_iff.mp hi1
    have h2 : Val.pystr "V" = Val.pystr s := hs
    injection h2 with h3
    subst h3
    exact (by decide : '\n' ∉ ("V" : String).data)
